import Mathlib

/-!
A shallow embedding of the `payments` transaction-processing engine
(`src/amount.rs`, `src/process.rs`, `src/tx.rs`), together with theorems
settling the specification claims.

Machine integers (`u64` "Money") are modelled as `Nat` with explicit
bounds checks against `2 ^ 64`; fallible Rust code returns `Except`,
and Rust panics (`panic!`, `.expect(...)`) are modelled as `Option.none`
on an outer `Option` layer.  Text is modelled as `List Char`
(`String.data`).
-/

namespace Payments

/-- Exclusive upper bound of the `u64` domain. -/
def U64SIZE : Nat := 2 ^ 64

/-- Rust's `u64::checked_add`. -/
def checkedAddM (x y : Nat) : Option Nat :=
  if x + y < U64SIZE then some (x + y) else none

/-- Rust's `u64::checked_sub`. -/
def checkedSubM (x y : Nat) : Option Nat :=
  if y ≤ x then some (x - y) else none

/-- Rust's `u64::checked_mul`. -/
def checkedMulM (x y : Nat) : Option Nat :=
  if x * y < U64SIZE then some (x * y) else none

/-- `Amount(Nat)` from `amount.rs`: an amount in 1/10000ths of a unit. -/
structure Amount where
  units : Nat
deriving DecidableEq, Repr

/-- `Amount::new`. -/
def Amount.new : Amount := ⟨0⟩

/-- `Amount::checked_add`. -/
def Amount.checkedAdd (a b : Amount) : Option Amount :=
  (checkedAddM a.units b.units).map Amount.mk

/-- `Amount::checked_sub`. -/
def Amount.checkedSub (a b : Amount) : Option Amount :=
  (checkedSubM a.units b.units).map Amount.mk

/-- Kinds of Rust `ParseIntError` relevant to `u64::from_str`. -/
inductive IntErrKind
  | empty
  | invalidDigit
  | posOverflow
deriving DecidableEq, Repr

/-- `ParseAmountError` from `amount.rs`. -/
inductive ParseAmountError
  | Parse (e : IntErrKind)
  | TooLarge
  | MultipleDots
  | TooPrecise
deriving DecidableEq, Repr

/-- Numeric value of a decimal digit character. -/
def charVal (c : Char) : Nat := c.toNat - '0'.toNat

/-- The digit-accumulation loop of Rust's `u64::from_str_radix` (radix 10):
each step multiplies by 10 and adds the digit, failing with overflow when
the accumulator would exceed the `u64` domain. -/
def parseDigitsLoop : List Char → Nat → Except IntErrKind Nat
  | [], acc => .ok acc
  | c :: rest, acc =>
    if c.isDigit then
      if acc * 10 + charVal c < U64SIZE then
        parseDigitsLoop rest (acc * 10 + charVal c)
      else .error .posOverflow
    else .error .invalidDigit

/-- Rust's `u64::from_str`: empty input fails, a single leading `'+'` is
skipped (but a bare `"+"` fails), then the digit loop runs.  A `'-'` sign is
not recognised for unsigned types and falls through to the digit loop, which
rejects it as an invalid digit. -/
def parseU64 (l : List Char) : Except IntErrKind Nat :=
  match l with
  | [] => .error .empty
  | c :: rest =>
    if c = '+' then
      if rest.isEmpty then .error .invalidDigit else parseDigitsLoop rest 0
    else parseDigitsLoop (c :: rest) 0

/-- Rust's `str::split('.')` on a character list. -/
def splitDot : List Char → List (List Char)
  | [] => [[]]
  | c :: rest =>
    if c = '.' then [] :: splitDot rest
    else
      match splitDot rest with
      | p :: ps => (c :: p) :: ps
      | [] => [[c]]

/-- Rust's `str::trim_end_matches('0')`. -/
def trimTrailingZeros (l : List Char) : List Char :=
  (l.reverse.dropWhile (fun c => c = '0')).reverse

/-- `Amount::from_str` from `amount.rs`.  Note that on the dotless path the
source computes `x * 10000` without an overflow check; in a release build
this wraps modulo `2 ^ 64`, which is what the `% U64SIZE` models. -/
def Amount.fromStr (s : List Char) : Except ParseAmountError Amount :=
  match splitDot s with
  | [ips] =>
    match parseU64 ips with
    | .error e => .error (.Parse e)
    | .ok x => .ok ⟨x * 10000 % U64SIZE⟩
  | [ips, fps] =>
    match (if ips.isEmpty then .ok 0 else parseU64 ips : Except IntErrKind Nat) with
    | .error e => .error (.Parse e)
    | .ok ip =>
      let fps1 := trimTrailingZeros fps
      if fps1.length > 4 then .error .TooPrecise
      else
        match (if fps1.isEmpty then .ok 0 else parseU64 fps1 : Except IntErrKind Nat) with
        | .error e => .error (.Parse e)
        | .ok fp0 =>
          let fp := if fps1.length < 4 then fp0 * 10 ^ (4 - fps1.length) else fp0
          match checkedMulM ip 10000 with
          | some x =>
            match checkedAddM x fp with
            | some res => .ok ⟨res⟩
            | none => .error .TooLarge
          | none => .error .TooLarge
  | _ => .error .MultipleDots

/-- `Amount::from_str` on a `String`. -/
def Amount.fromString (s : String) : Except ParseAmountError Amount :=
  Amount.fromStr s.data

/-- Decimal rendering of a `Nat`, as Rust's `{}` format for `u64`. -/
def natToChars (n : Nat) : List Char :=
  if n = 0 then ['0'] else ((Nat.digits 10 n).map Nat.digitChar).reverse

/-- Left-pad with `'0'` to width `w`, as Rust's `{:0width$}` format. -/
def padZeros (w : Nat) (l : List Char) : List Char :=
  List.replicate (w - l.length) '0' ++ l

/-- The trailing-zero-stripping loop of `Amount`'s `Display` impl:
`while fp % 10 == 0 { fp /= 10; width -= 1 }`.  The source only runs it
with `fp > 0`, which guarantees termination; the `0 < fp` guard makes the
model total without changing behaviour on the reachable inputs. -/
def stripZeros (fp : Nat) (width : Nat) : Nat × Nat :=
  if h : 0 < fp ∧ fp % 10 = 0 then stripZeros (fp / 10) (width - 1)
  else (fp, width)
termination_by fp
decreasing_by exact Nat.div_lt_self h.1 (by omega)

/-- `Amount`'s `Display` impl from `amount.rs`. -/
def Amount.format (a : Amount) : List Char :=
  let x := a.units
  let fp := x % 10000
  if fp > 0 then
    let p := stripZeros fp 4
    natToChars (x / 10000) ++ '.' :: padZeros p.2 (natToChars p.1)
  else natToChars (x / 10000)

/-- `Amount` formatting to a `String`. -/
def Amount.toText (a : Amount) : String :=
  ⟨a.format⟩

/-- `ClientID(u16)` from `tx.rs`, as an opaque identifier. -/
abbrev ClientID := Nat

/-- `TxID(u32)` from `tx.rs`, as an opaque identifier. -/
abbrev TxID := Nat

/-- The `Tx` event enum from `tx.rs`. -/
inductive Tx
  | Deposit (client_id : ClientID) (tx_id : TxID) (amount : Amount)
  | Withdrawal (client_id : ClientID) (tx_id : TxID) (amount : Amount)
  | Dispute (client_id : ClientID) (tx_id : TxID)
  | Resolve (client_id : ClientID) (tx_id : TxID)
  | Chargeback (client_id : ClientID) (tx_id : TxID)
deriving DecidableEq, Repr

/-- The client of an event. -/
def Tx.client : Tx → ClientID
  | .Deposit c _ _ => c
  | .Withdrawal c _ _ => c
  | .Dispute c _ => c
  | .Resolve c _ => c
  | .Chargeback c _ => c

/-- `TxProcessingError` from `process.rs`. -/
inductive TxProcessingError
  | AmountOverflow
  | InsufficientFunds
  | DepositNotFound
  | TxAlreadyDisputed
  | TxNotDisputed
  | AccountLocked
deriving DecidableEq, Repr

/-- Per-client account state (`Client` in `process.rs`). -/
structure Client where
  available : Amount
  held : Amount
  locked : Bool
deriving DecidableEq, Repr

/-- `Client::new`. -/
def Client.new : Client := ⟨Amount.new, Amount.new, false⟩

/-- `Client::total`; the `.expect` on overflow is a panic, modelled as
`none`. -/
def Client.totalOf (c : Client) : Option Amount :=
  c.available.checkedAdd c.held

/-- `Client::deposit`.  `none` is a panic (from `total()`'s or the
available-update's `.expect`), `some (.error e)` a recoverable error. -/
def Client.deposit (c : Client) (amount : Amount) : Option (Except TxProcessingError Client) :=
  match c.totalOf with
  | none => none
  | some t =>
    if (t.checkedAdd amount).isSome then
      match c.available.checkedAdd amount with
      | some av => some (.ok { c with available := av })
      | none => none
    else some (.error .AmountOverflow)

/-- `Client::withdraw` (no panic path). -/
def Client.withdraw (c : Client) (amount : Amount) : Except TxProcessingError Client :=
  match c.available.checkedSub amount with
  | some x => .ok { c with available := x }
  | none => .error .InsufficientFunds

/-- `Client::dispute`; the held-update `.expect` is a panic (`none`). -/
def Client.dispute (c : Client) (amount : Amount) : Option (Except TxProcessingError Client) :=
  match c.available.checkedSub amount with
  | some x =>
    match c.held.checkedAdd amount with
    | some h => some (.ok { c with available := x, held := h })
    | none => none
  | none => some (.error .InsufficientFunds)

/-- `Client::resolve`; both `.expect`s are panics (`none`). -/
def Client.resolve (c : Client) (amount : Amount) : Option Client :=
  match c.available.checkedAdd amount with
  | none => none
  | some av =>
    match c.held.checkedSub amount with
    | none => none
    | some h => some { c with available := av, held := h }

/-- `Client::chargeback`; the held-update `.expect` is a panic (`none`). -/
def Client.chargeback (c : Client) (amount : Amount) : Option Client :=
  match c.held.checkedSub amount with
  | none => none
  | some h => some { c with held := h, locked := true }

/-- Association-list lookup, modelling `HashMap::get` for `Nat` keys. -/
def lookupA {α : Type} (m : List (Nat × α)) (k : Nat) : Option α :=
  match m with
  | [] => none
  | (k', v) :: rest => if k = k' then some v else lookupA rest k

/-- Association-list insert-or-replace, modelling `HashMap::insert`. -/
def insertA {α : Type} (m : List (Nat × α)) (k : Nat) (v : α) : List (Nat × α) :=
  match m with
  | [] => [(k, v)]
  | (k', v') :: rest => if k = k' then (k, v) :: rest else (k', v') :: insertA rest k v

/-- `HashMap::entry(k).or_insert(Client::new())`: returns the map (with the
key freshly inserted when absent) and the entry's value. -/
def orInsertClient (m : List (ClientID × Client)) (c : ClientID) :
    List (ClientID × Client) × Client :=
  match lookupA m c with
  | some cl => (m, cl)
  | none => (m ++ [(c, Client.new)], Client.new)

/-- The `TxProcessor` engine state from `process.rs`. -/
structure TxProcessor where
  clients : List (ClientID × Client)
  deposits : List (ClientID × List (TxID × Amount))
  disputed : List TxID
deriving DecidableEq, Repr

/-- `TxProcessor::new`. -/
def TxProcessor.new : TxProcessor := ⟨[], [], []⟩

/-- `TxProcessor::deposit_amount`. -/
def TxProcessor.deposit_amount (p : TxProcessor) (c : ClientID) (tx : TxID) :
    Except TxProcessingError Amount :=
  match lookupA p.deposits c with
  | none => .error .DepositNotFound
  | some m =>
    match lookupA m tx with
    | none => .error .DepositNotFound
    | some a => .ok a

/-- `TxProcessor::process`.  `none` is a panic (duplicate deposit TxID for
one client, or an invariant-violation `.expect` inside `Client`); otherwise
`some (p, none)` is success and `some (p, some e)` a recoverable error.
Note that `TxProcessor::client`'s `entry(..).or_insert(..)` mutates the
clients map even when the locked check then fails, and that Resolve and
Chargeback call `disputed.remove` before `TxProcessor::client`. -/
def TxProcessor.process (p : TxProcessor) (t : Tx) :
    Option (TxProcessor × Option TxProcessingError) :=
  match t with
  | .Deposit c tx a =>
    let r := orInsertClient p.clients c
    let p1 : TxProcessor := { p with clients := r.1 }
    if r.2.locked then some (p1, some .AccountLocked)
    else
      match r.2.deposit a with
      | none => none
      | some (.error e) => some (p1, some e)
      | some (.ok cl') =>
        let dmap := (lookupA p.deposits c).getD []
        if (lookupA dmap tx).isSome then none
        else
          some ({ p1 with
                    clients := insertA r.1 c cl',
                    deposits := insertA p.deposits c (insertA dmap tx a) }, none)
  | .Withdrawal c _ a =>
    let r := orInsertClient p.clients c
    let p1 : TxProcessor := { p with clients := r.1 }
    if r.2.locked then some (p1, some .AccountLocked)
    else
      match r.2.withdraw a with
      | .error e => some (p1, some e)
      | .ok cl' => some ({ p1 with clients := insertA r.1 c cl' }, none)
  | .Dispute c tx =>
    match p.deposit_amount c tx with
    | .error e => some (p, some e)
    | .ok a =>
      if tx ∈ p.disputed then some (p, some .TxAlreadyDisputed)
      else
        let r := orInsertClient p.clients c
        let p1 : TxProcessor := { p with clients := r.1 }
        if r.2.locked then some (p1, some .AccountLocked)
        else
          match r.2.dispute a with
          | none => none
          | some (.error e) => some (p1, some e)
          | some (.ok cl') =>
            some ({ p1 with clients := insertA r.1 c cl',
                            disputed := tx :: p.disputed }, none)
  | .Resolve c tx =>
    match p.deposit_amount c tx with
    | .error e => some (p, some e)
    | .ok a =>
      if tx ∈ p.disputed then
        let p1 : TxProcessor := { p with disputed := p.disputed.erase tx }
        let r := orInsertClient p1.clients c
        let p2 : TxProcessor := { p1 with clients := r.1 }
        if r.2.locked then some (p2, some .AccountLocked)
        else
          match r.2.resolve a with
          | none => none
          | some cl' => some ({ p2 with clients := insertA r.1 c cl' }, none)
      else some (p, some .TxNotDisputed)
  | .Chargeback c tx =>
    match p.deposit_amount c tx with
    | .error e => some (p, some e)
    | .ok a =>
      if tx ∈ p.disputed then
        let p1 : TxProcessor := { p with disputed := p.disputed.erase tx }
        let r := orInsertClient p1.clients c
        let p2 : TxProcessor := { p1 with clients := r.1 }
        if r.2.locked then some (p2, some .AccountLocked)
        else
          match r.2.chargeback a with
          | none => none
          | some cl' => some ({ p2 with clients := insertA r.1 c cl' }, none)
      else some (p, some .TxNotDisputed)

/-- `ClientSummary` from `process.rs`. -/
structure ClientSummary where
  id : ClientID
  available : Amount
  held : Amount
  total : Amount
  locked : Bool
deriving DecidableEq, Repr

/-- Option-valued map over a list: `none` (a panic inside the iterator)
aborts the whole traversal. -/
def mapOption {α β : Type} (f : α → Option β) : List α → Option (List β)
  | [] => some []
  | x :: xs =>
    match f x with
    | none => none
    | some y => (mapOption f xs).map (fun ys => y :: ys)

/-- `TxProcessor::client_summaries`; `client.total()` can panic (`none`). -/
def TxProcessor.client_summaries (p : TxProcessor) : Option (List ClientSummary) :=
  mapOption (fun e =>
    (e.2.totalOf).map (fun t => ⟨e.1, e.2.available, e.2.held, t, e.2.locked⟩)) p.clients

/-- The processing loop of `main.rs` over a list of events: each event is
applied in order; a recoverable error drops the event (recorded in the
trace), a panic aborts the whole run (`none`). -/
def runTrace (p : TxProcessor) : List Tx → Option (TxProcessor × List (Option TxProcessingError))
  | [] => some (p, [])
  | t :: rest =>
    match p.process t with
    | none => none
    | some (p', e) =>
      match runTrace p' rest with
      | none => none
      | some (p'', es) => some (p'', e :: es)

/-! ## Association-list lemmas -/

theorem lookupA_insertA {α : Type} (m : List (Nat × α)) (k : Nat) (v : α) (k' : Nat) :
    lookupA (insertA m k v) k' = if k' = k then some v else lookupA m k' := by
  induction m with
  | nil => by_cases h : k' = k <;> simp [insertA, lookupA, h]
  | cons hd tl ih =>
    obtain ⟨k0, v0⟩ := hd
    by_cases hk : k = k0
    · subst hk
      by_cases h' : k' = k <;> simp [insertA, lookupA, h']
    · by_cases h0 : k' = k0
      · subst h0
        have hne : ¬k' = k := fun h => hk (Eq.symm h)
        simp [insertA, lookupA, hk, hne]
      · simp [insertA, lookupA, hk, h0, ih]

theorem lookupA_append {α : Type} (m l : List (Nat × α)) (k : Nat) :
    lookupA (m ++ l) k = ((lookupA m k).rec (lookupA l k) (fun v => some v)) := by
  induction m with
  | nil => simp [lookupA]
  | cons hd tl ih =>
    obtain ⟨k0, v0⟩ := hd
    by_cases h : k = k0 <;> simp [lookupA, h, ih]

theorem orInsertClient_lookup (m : List (ClientID × Client)) (c c' : ClientID) :
    lookupA (orInsertClient m c).1 c' =
      if c' = c then some ((lookupA m c).getD Client.new) else lookupA m c' := by
  unfold orInsertClient
  rcases h : lookupA m c with _ | cl
  · simp only
    rw [lookupA_append]
    by_cases hc : c' = c
    · subst hc; rw [h]; simp [lookupA]
    · rcases h' : lookupA m c' with _ | cl'
      · simp [lookupA, hc, h']
      · simp [h', hc]
  · simp only [h]
    by_cases hc : c' = c
    · subst hc; simp [h]
    · simp [hc]

theorem orInsertClient_val (m : List (ClientID × Client)) (c : ClientID) :
    (orInsertClient m c).2 = (lookupA m c).getD Client.new := by
  unfold orInsertClient
  rcases h : lookupA m c with _ | cl <;> simp

/-! ## Concrete event sequences used by the end-to-end claims -/

/-- The end-to-end scenario of the spec: deposit 1.0 and 2.0 to client 1,
dispute tx 1, withdraw 1.5, resolve tx 1. -/
def txsC1 : List Tx :=
  [.Deposit 1 1 ⟨10000⟩, .Deposit 1 2 ⟨20000⟩, .Dispute 1 1,
   .Withdrawal 1 3 ⟨15000⟩, .Resolve 1 1]

/-- A scenario reaching a Resolve that fails on a locked account: two
deposits, both disputed, the first charged back (locking the account),
then the second resolved. -/
def txsC5 : List Tx :=
  [.Deposit 1 1 ⟨10000⟩, .Deposit 1 2 ⟨10000⟩, .Dispute 1 1, .Dispute 1 2,
   .Chargeback 1 1, .Resolve 1 2]

/-- C1 counterexample: on the spec's end-to-end scenario every event
succeeds — in particular the withdrawal of 1.5 does NOT fail (available is
2.0 ≥ 1.5 at that point) — and the final summary for client 1 is
available=1.5, held=0, total=1.5, not available=3.0/total=3.0 as claimed. -/
theorem claim_C1_counterexample :
    (runTrace TxProcessor.new txsC1).map (fun r => (r.2, r.1.client_summaries)) =
      some ([none, none, none, none, none],
            some [⟨1, ⟨15000⟩, ⟨0⟩, ⟨15000⟩, false⟩]) := rfl

/-- C1 (amended): on the end-to-end scenario all five events succeed (the
withdrawal of 1.5 succeeds since available is 2.0 at that point), and the
final summary for client 1 is available=1.5, held=0, total=1.5,
locked=false. -/
theorem claim_C1 :
    ∃ p, runTrace TxProcessor.new txsC1 = some (p, [none, none, none, none, none]) ∧
      p.client_summaries = some [⟨1, ⟨15000⟩, ⟨0⟩, ⟨15000⟩, false⟩] :=
  ⟨_, rfl, rfl⟩

/-- C5 counterexample: after deposits tx 1 and tx 2 are both disputed and
tx 1 is charged back (locking client 1), the disputed set is `[2]`; the
subsequent Resolve of tx 2 fails with `AccountLocked` yet the final
disputed set is `[]` — the failing Resolve removed tx 2 from the disputed
set, contradicting the claim that a Resolve failing with `AccountLocked`
leaves the disputed set exactly as it was. -/
theorem claim_C5_counterexample :
    (runTrace TxProcessor.new (txsC5.take 5)).map (fun r => r.1.disputed) = some [2] ∧
    (runTrace TxProcessor.new txsC5).map (fun r => (r.2.getLast?, r.1.disputed)) =
      some (some (some .AccountLocked), []) :=
  ⟨rfl, rfl⟩

/-- C6: evaluating the parser at the failing input `"2000000000000000"`
(a dotless input whose value 2*10^15 * 10^4 = 2*10^19 exceeds the u64
domain): the source computes `x * 10000` without an overflow check on the
dotless path, so (in a release build) the value wraps modulo 2^64 and the
parse SUCCEEDS with a silently corrupted amount instead of failing with
`TooLarge` as the spec requires. -/
theorem claim_C6 :
    Amount.fromString "2000000000000000" = .ok ⟨1553255926290448384⟩ ∧
    (2000000000000000 * 10000) % U64SIZE = 1553255926290448384 :=
  ⟨rfl, by norm_num [U64SIZE]⟩

/-- C8 counterexample: the input `"1.+5"` has a `'+'` — not a decimal
digit — in its fractional part, yet parsing succeeds (with value 1.05),
because Rust's `u64::from_str` accepts a leading `'+'` inside the
fractional part; this contradicts the claim that no such string is
accepted. -/
theorem claim_C8_counterexample :
    Amount.fromString "1.+5" = .ok ⟨10500⟩ := rfl

/-- C10 counterexample: two Deposit events with the same TxID 7 for two
DIFFERENT clients both succeed — the duplicate-TxID panic check is scoped
to a single client's deposit map — contradicting the claim that the second
deposit aborts fatally for every pair of client identifiers. -/
theorem claim_C10_counterexample :
    (runTrace TxProcessor.new [.Deposit 1 7 ⟨5⟩, .Deposit 2 7 ⟨5⟩]).map (fun r => r.2) =
      some [none, none] := rfl

/-! ## C4: lock monotonicity -/

theorem locked_client_rejected (p : TxProcessor) (t : Tx) (c : ClientID) (cl : Client)
    (hcl : lookupA p.clients c = some cl) (hlk : cl.locked = true) (hc : t.client = c) :
    ∃ p' e, p.process t = some (p', some e) := by
  cases t with
  | Deposit c1 tx a =>
    cases hc
    simp only [Tx.client] at hcl
    simp [TxProcessor.process, orInsertClient, hcl, hlk]
  | Withdrawal c1 tx a =>
    cases hc
    simp only [Tx.client] at hcl
    simp [TxProcessor.process, orInsertClient, hcl, hlk]
  | Dispute c1 tx =>
    cases hc
    simp only [Tx.client] at hcl
    rcases hda : p.deposit_amount c1 tx with e | a
    · exact ⟨p, e, by simp [TxProcessor.process, hda]⟩
    · by_cases hmem : tx ∈ p.disputed
      · exact ⟨p, .TxAlreadyDisputed, by simp [TxProcessor.process, hda, hmem]⟩
      · refine ⟨p, .AccountLocked, ?_⟩
        simp [TxProcessor.process, hda, hmem, orInsertClient, hcl, hlk]
  | Resolve c1 tx =>
    cases hc
    simp only [Tx.client] at hcl
    rcases hda : p.deposit_amount c1 tx with e | a
    · exact ⟨p, e, by simp [TxProcessor.process, hda]⟩
    · by_cases hmem : tx ∈ p.disputed
      · refine ⟨{ p with disputed := p.disputed.erase tx }, .AccountLocked, ?_⟩
        simp [TxProcessor.process, hda, hmem, orInsertClient, hcl, hlk]
      · exact ⟨p, .TxNotDisputed, by simp [TxProcessor.process, hda, hmem]⟩
  | Chargeback c1 tx =>
    cases hc
    simp only [Tx.client] at hcl
    rcases hda : p.deposit_amount c1 tx with e | a
    · exact ⟨p, e, by simp [TxProcessor.process, hda]⟩
    · by_cases hmem : tx ∈ p.disputed
      · refine ⟨{ p with disputed := p.disputed.erase tx }, .AccountLocked, ?_⟩
        simp [TxProcessor.process, hda, hmem, orInsertClient, hcl, hlk]
      · exact ⟨p, .TxNotDisputed, by simp [TxProcessor.process, hda, hmem]⟩

theorem lookup_after_update (m : List (ClientID × Client)) (c c1 : ClientID)
    (cl cl' : Client) (hcl : lookupA m c = some cl) (hne : ¬c = c1) :
    lookupA (insertA (orInsertClient m c1).1 c1 cl') c = some cl := by
  rw [lookupA_insertA, if_neg hne, orInsertClient_lookup, if_neg hne, hcl]

theorem locked_stays (p : TxProcessor) (t : Tx) (p' : TxProcessor)
    (oe : Option TxProcessingError) (hp : p.process t = some (p', oe))
    (c : ClientID) (cl : Client) (hcl : lookupA p.clients c = some cl)
    (hlk : cl.locked = true) :
    ∃ cl', lookupA p'.clients c = some cl' ∧ cl'.locked = true := by
  have hval : ∀ c1, ¬((orInsertClient p.clients c1).2).locked = true → ¬c = c1 := by
    intro c1 hnl hceq
    subst hceq
    rw [orInsertClient_val, hcl] at hnl
    exact hnl hlk
  have hor : ∀ c1, lookupA (orInsertClient p.clients c1).1 c = some cl := by
    intro c1
    rw [orInsertClient_lookup]
    by_cases h : c = c1
    · subst h; simp [hcl]
    · rw [if_neg h, hcl]
  cases t with
  | Deposit c1 tx a =>
    simp only [TxProcessor.process] at hp
    split at hp
    · simp only [Option.some.injEq, Prod.mk.injEq] at hp
      obtain ⟨rfl, rfl⟩ := hp
      exact ⟨cl, by simpa using hor c1, hlk⟩
    · next hnl =>
      have hne := hval c1 hnl
      rcases hd : ((orInsertClient p.clients c1).2).deposit a with _ | e1 | cl'
      all_goals simp only [hd] at hp
      · exact Option.noConfusion hp
      · simp only [Option.some.injEq, Prod.mk.injEq] at hp
        obtain ⟨rfl, rfl⟩ := hp
        exact ⟨cl, by simpa using hor c1, hlk⟩
      · split at hp
        · exact Option.noConfusion hp
        · simp only [Option.some.injEq, Prod.mk.injEq] at hp
          obtain ⟨rfl, rfl⟩ := hp
          exact ⟨cl, by simpa using lookup_after_update p.clients c c1 cl cl' hcl hne, hlk⟩
  | Withdrawal c1 tx a =>
    simp only [TxProcessor.process] at hp
    split at hp
    · simp only [Option.some.injEq, Prod.mk.injEq] at hp
      obtain ⟨rfl, rfl⟩ := hp
      exact ⟨cl, by simpa using hor c1, hlk⟩
    · next hnl =>
      have hne := hval c1 hnl
      rcases hd : ((orInsertClient p.clients c1).2).withdraw a with e1 | cl'
      all_goals simp only [hd] at hp
      all_goals simp only [Option.some.injEq, Prod.mk.injEq] at hp
      all_goals obtain ⟨rfl, rfl⟩ := hp
      · exact ⟨cl, by simpa using hor c1, hlk⟩
      · exact ⟨cl, by simpa using lookup_after_update p.clients c c1 cl cl' hcl hne, hlk⟩
  | Dispute c1 tx =>
    simp only [TxProcessor.process] at hp
    rcases hda : p.deposit_amount c1 tx with e | a
    all_goals simp only [hda] at hp
    · simp only [Option.some.injEq, Prod.mk.injEq] at hp
      obtain ⟨rfl, rfl⟩ := hp
      exact ⟨cl, hcl, hlk⟩
    · split at hp
      · simp only [Option.some.injEq, Prod.mk.injEq] at hp
        obtain ⟨rfl, rfl⟩ := hp
        exact ⟨cl, hcl, hlk⟩
      · split at hp
        · simp only [Option.some.injEq, Prod.mk.injEq] at hp
          obtain ⟨rfl, rfl⟩ := hp
          exact ⟨cl, by simpa using hor c1, hlk⟩
        · next hnl =>
          have hne := hval c1 (by simpa using hnl)
          rcases hd : ((orInsertClient p.clients c1).2).dispute a with _ | e1 | cl'
          all_goals simp only [hd] at hp
          · exact Option.noConfusion hp
          · simp only [Option.some.injEq, Prod.mk.injEq] at hp
            obtain ⟨rfl, rfl⟩ := hp
            exact ⟨cl, by simpa using hor c1, hlk⟩
          · simp only [Option.some.injEq, Prod.mk.injEq] at hp
            obtain ⟨rfl, rfl⟩ := hp
            exact ⟨cl, by simpa using lookup_after_update p.clients c c1 cl cl' hcl hne, hlk⟩
  | Resolve c1 tx =>
    simp only [TxProcessor.process] at hp
    rcases hda : p.deposit_amount c1 tx with e | a
    all_goals simp only [hda] at hp
    · simp only [Option.some.injEq, Prod.mk.injEq] at hp
      obtain ⟨rfl, rfl⟩ := hp
      exact ⟨cl, hcl, hlk⟩
    · split at hp
      · split at hp
        · simp only [Option.some.injEq, Prod.mk.injEq] at hp
          obtain ⟨rfl, rfl⟩ := hp
          exact ⟨cl, by simpa using hor c1, hlk⟩
        · next hnl =>
          have hne := hval c1 (by simpa using hnl)
          rcases hd : ((orInsertClient p.clients c1).2).resolve a with _ | cl'
          all_goals simp only [hd] at hp
          · exact Option.noConfusion hp
          · simp only [Option.some.injEq, Prod.mk.injEq] at hp
            obtain ⟨rfl, rfl⟩ := hp
            exact ⟨cl, by simpa using lookup_after_update p.clients c c1 cl cl' hcl hne, hlk⟩
      · simp only [Option.some.injEq, Prod.mk.injEq] at hp
        obtain ⟨rfl, rfl⟩ := hp
        exact ⟨cl, hcl, hlk⟩
  | Chargeback c1 tx =>
    simp only [TxProcessor.process] at hp
    rcases hda : p.deposit_amount c1 tx with e | a
    all_goals simp only [hda] at hp
    · simp only [Option.some.injEq, Prod.mk.injEq] at hp
      obtain ⟨rfl, rfl⟩ := hp
      exact ⟨cl, hcl, hlk⟩
    · split at hp
      · split at hp
        · simp only [Option.some.injEq, Prod.mk.injEq] at hp
          obtain ⟨rfl, rfl⟩ := hp
          exact ⟨cl, by simpa using hor c1, hlk⟩
        · next hnl =>
          have hne := hval c1 (by simpa using hnl)
          rcases hd : ((orInsertClient p.clients c1).2).chargeback a with _ | cl'
          all_goals simp only [hd] at hp
          · exact Option.noConfusion hp
          · simp only [Option.some.injEq, Prod.mk.injEq] at hp
            obtain ⟨rfl, rfl⟩ := hp
            exact ⟨cl, by simpa using lookup_after_update p.clients c c1 cl cl' hcl hne, hlk⟩
      · simp only [Option.some.injEq, Prod.mk.injEq] at hp
        obtain ⟨rfl, rfl⟩ := hp
        exact ⟨cl, hcl, hlk⟩

/-- C4: in any engine state, if a client's account is locked then every
event of any kind for that client fails with a recoverable error (it is
neither applied nor a panic), and no processing step — for any client —
ever removes or unlocks a locked account. -/
theorem claim_C4 (p : TxProcessor) (t : Tx) (c : ClientID) (cl : Client)
    (hcl : lookupA p.clients c = some cl) (hlk : cl.locked = true) :
    (t.client = c → ∃ p' e, p.process t = some (p', some e)) ∧
    (∀ p' oe, p.process t = some (p', oe) →
      ∃ cl', lookupA p'.clients c = some cl' ∧ cl'.locked = true) :=
  ⟨fun hc => locked_client_rejected p t c cl hcl hlk hc,
   fun p' oe hp => locked_stays p t p' oe hp c cl hcl hlk⟩

/-- An engine state whose client 1 is locked, for the C4 witness. -/
def stC4 : TxProcessor := ⟨[(1, ⟨⟨0⟩, ⟨0⟩, true⟩)], [], []⟩

/-- Witness for C4 at a concrete locked state and a concrete Deposit. -/
theorem claim_C4_witness :
    (∃ p' e, stC4.process (.Deposit 1 1 ⟨5⟩) = some (p', some e)) ∧
    (∃ cl', lookupA stC4.clients 1 = some cl' ∧ cl'.locked = true) :=
  ⟨(claim_C4 stC4 (.Deposit 1 1 ⟨5⟩) 1 ⟨⟨0⟩, ⟨0⟩, true⟩ rfl rfl).1 rfl,
   (claim_C4 stC4 (.Deposit 1 1 ⟨5⟩) 1 ⟨⟨0⟩, ⟨0⟩, true⟩ rfl rfl).2 stC4
     (some .AccountLocked) rfl⟩

/-! ## C5, C7, C10: dispute-lifecycle error handling -/

theorem claim_C5 (p : TxProcessor) (c : ClientID) (tx : TxID) :
    (∀ e, p.deposit_amount c tx = .error e →
      p.process (.Resolve c tx) = some (p, some e) ∧
      p.process (.Chargeback c tx) = some (p, some e)) ∧
    (∀ a, p.deposit_amount c tx = .ok a → tx ∉ p.disputed →
      p.process (.Resolve c tx) = some (p, some .TxNotDisputed) ∧
      p.process (.Chargeback c tx) = some (p, some .TxNotDisputed)) ∧
    (∀ a cl, p.deposit_amount c tx = .ok a → tx ∈ p.disputed →
      lookupA p.clients c = some cl → cl.locked = true →
      p.process (.Resolve c tx) =
        some ({ p with disputed := p.disputed.erase tx }, some .AccountLocked) ∧
      p.process (.Chargeback c tx) =
        some ({ p with disputed := p.disputed.erase tx }, some .AccountLocked)) := by
  refine ⟨fun e hda => ?_, fun a hda hmem => ?_, fun a cl hda hmem hcl hlk => ?_⟩
  · constructor <;> simp [TxProcessor.process, hda]
  · constructor <;> simp [TxProcessor.process, hda, hmem]
  · constructor <;> simp [TxProcessor.process, hda, hmem, orInsertClient, hcl, hlk]



theorem deposit_passes (cl : Client) (a : Amount)
    (hsum : cl.available.units + cl.held.units + a.units < U64SIZE) :
    cl.deposit a = some (.ok { cl with available := ⟨cl.available.units + a.units⟩ }) := by
  have h1 : cl.available.units + cl.held.units < U64SIZE :=
    Nat.lt_of_le_of_lt (Nat.le_add_right _ _) hsum
  have h3 : cl.available.units + a.units < U64SIZE :=
    Nat.lt_of_le_of_lt (by omega) hsum
  unfold Client.deposit Client.totalOf Amount.checkedAdd
  simp [checkedAddM, h1, hsum, h3]

/-- A panic-free trace in which TxID 7 is successfully disputed twice with
no intervening successful Resolve or Chargeback of it: clients 1 and 2 both
deposit under TxID 7 (legal, per the per-client duplicate check), client 1
disputes 7 and 8, the chargeback of 8 locks client 1, the Resolve of 7 then
fails with AccountLocked yet removes 7 from the disputed set, and client 2
disputes 7 again. -/
def txsC7 : List Tx :=
  [.Deposit 1 7 ⟨10000⟩, .Deposit 1 8 ⟨10000⟩, .Deposit 2 7 ⟨10000⟩,
   .Dispute 1 7, .Dispute 1 8, .Chargeback 1 8, .Resolve 1 7, .Dispute 2 7]

/-- C7 counterexample: on `txsC7` the two Dispute events for TxID 7 (the
4th and 8th events) both SUCCEED, and the only intervening Resolve or
Chargeback referencing TxID 7 (the 7th event) fails with `AccountLocked` —
so a TxID is successfully disputed twice without an intervening successful
Resolve or Chargeback of it, refuting the claim's temporal conjunct.  (The
failing Resolve had already removed 7 from the disputed set, and the final
successful dispute puts it back.) -/
theorem claim_C7_counterexample :
    (runTrace TxProcessor.new txsC7).map (fun r => (r.2, r.1.disputed)) =
      some ([none, none, none, none, none, none, some .AccountLocked, none], [7]) :=
  rfl

/-- C7 (amended): in any engine state, a Dispute for a TxID currently in
the disputed set fails — with `TxAlreadyDisputed` whenever the deposit
lookup for (client, tx) succeeds, `DepositNotFound` otherwise — and a
Resolve or Chargeback referencing a TxID not currently disputed, or a
(client, tx) pair with no recorded deposit, fails.  The original claim's
temporal conjunct (no TxID successfully disputed twice without an
intervening successful Resolve or Chargeback) does NOT hold globally: a
Resolve or Chargeback failing with `AccountLocked` still removes the tx
from the disputed set, and a TxID deposited by two clients can then be
disputed again — see the counterexample trace. -/
theorem claim_C7 (p : TxProcessor) (c : ClientID) (tx : TxID) :
    (tx ∈ p.disputed →
      (∃ e, p.process (.Dispute c tx) = some (p, some e)) ∧
      (∀ a, p.deposit_amount c tx = .ok a →
        p.process (.Dispute c tx) = some (p, some .TxAlreadyDisputed))) ∧
    (tx ∉ p.disputed →
      (∃ e, p.process (.Resolve c tx) = some (p, some e)) ∧
      (∃ e, p.process (.Chargeback c tx) = some (p, some e))) ∧
    (p.deposit_amount c tx = .error .DepositNotFound →
      p.process (.Resolve c tx) = some (p, some .DepositNotFound) ∧
      p.process (.Chargeback c tx) = some (p, some .DepositNotFound)) := by
  refine ⟨fun hmem => ⟨?_, fun a hda => ?_⟩, fun hmem => ⟨?_, ?_⟩, fun hda => ?_⟩
  · rcases hda : p.deposit_amount c tx with e | a
    · exact ⟨e, by simp [TxProcessor.process, hda]⟩
    · exact ⟨.TxAlreadyDisputed, by simp [TxProcessor.process, hda, hmem]⟩
  · simp [TxProcessor.process, hda, hmem]
  · rcases hda : p.deposit_amount c tx with e | a
    · exact ⟨e, by simp [TxProcessor.process, hda]⟩
    · exact ⟨.TxNotDisputed, by simp [TxProcessor.process, hda, hmem]⟩
  · rcases hda : p.deposit_amount c tx with e | a
    · exact ⟨e, by simp [TxProcessor.process, hda]⟩
    · exact ⟨.TxNotDisputed, by simp [TxProcessor.process, hda, hmem]⟩
  · constructor <;> simp [TxProcessor.process, hda]

theorem claim_C10 (p : TxProcessor) (c : ClientID) (tx : TxID) (a : Amount) :
    (((lookupA p.clients c).getD Client.new).locked = false →
     ((lookupA p.clients c).getD Client.new).available.units +
       ((lookupA p.clients c).getD Client.new).held.units + a.units < U64SIZE →
     ((lookupA ((lookupA p.deposits c).getD []) tx).isSome →
        p.process (.Deposit c tx a) = none) ∧
     (lookupA ((lookupA p.deposits c).getD []) tx = none →
        (p.process (.Deposit c tx a)).map (fun r => r.2) = some none)) := by
  intro hlk hsum
  have hval := orInsertClient_val p.clients c
  have hd := deposit_passes ((lookupA p.clients c).getD Client.new) a hsum
  constructor
  · intro hdup
    simp [TxProcessor.process, hval, hlk, hd, hdup]
  · intro hnone
    simp [TxProcessor.process, hval, hlk, hd, hnone]



/-- A state with a recorded deposit (client 1, tx 1, amount 5) and nothing disputed. -/
def wstA : TxProcessor := ⟨[], [(1, [(1, ⟨5⟩)])], []⟩

/-- A state whose deposit tx 1 is disputed and whose client 1 is locked. -/
def wstB : TxProcessor := ⟨[(1, ⟨⟨0⟩, ⟨5⟩, true⟩)], [(1, [(1, ⟨5⟩)])], [1]⟩

theorem claim_C5_witness :
    (TxProcessor.new.process (.Resolve 1 1) = some (TxProcessor.new, some .DepositNotFound) ∧
     TxProcessor.new.process (.Chargeback 1 1) = some (TxProcessor.new, some .DepositNotFound)) ∧
    (wstA.process (.Resolve 1 1) = some (wstA, some .TxNotDisputed) ∧
     wstA.process (.Chargeback 1 1) = some (wstA, some .TxNotDisputed)) ∧
    (wstB.process (.Resolve 1 1) =
       some ({ wstB with disputed := wstB.disputed.erase 1 }, some .AccountLocked) ∧
     wstB.process (.Chargeback 1 1) =
       some ({ wstB with disputed := wstB.disputed.erase 1 }, some .AccountLocked)) :=
  ⟨(claim_C5 TxProcessor.new 1 1).1 .DepositNotFound rfl,
   (claim_C5 wstA 1 1).2.1 ⟨5⟩ rfl (by decide),
   (claim_C5 wstB 1 1).2.2 ⟨5⟩ ⟨⟨0⟩, ⟨5⟩, true⟩ rfl (by decide) rfl rfl⟩

theorem claim_C7_witness :
    ((∃ e, wstB.process (.Dispute 1 1) = some (wstB, some e)) ∧
     wstB.process (.Dispute 1 1) = some (wstB, some .TxAlreadyDisputed)) ∧
    ((∃ e, wstA.process (.Resolve 1 1) = some (wstA, some e)) ∧
     (∃ e, wstA.process (.Chargeback 1 1) = some (wstA, some e))) ∧
    (TxProcessor.new.process (.Resolve 1 1) = some (TxProcessor.new, some .DepositNotFound) ∧
     TxProcessor.new.process (.Chargeback 1 1) = some (TxProcessor.new, some .DepositNotFound)) :=
  ⟨⟨((claim_C7 wstB 1 1).1 (by decide)).1, ((claim_C7 wstB 1 1).1 (by decide)).2 ⟨5⟩ rfl⟩,
   (claim_C7 wstA 1 1).2.1 (by decide),
   (claim_C7 TxProcessor.new 1 1).2.2 rfl⟩

theorem claim_C10_witness :
    wstA.process (.Deposit 1 1 ⟨5⟩) = none ∧
    (wstA.process (.Deposit 2 1 ⟨5⟩)).map (fun r => r.2) = some none :=
  ⟨((claim_C10 wstA 1 1 ⟨5⟩) rfl (by decide)).1 (by decide),
   ((claim_C10 wstA 2 1 ⟨5⟩) rfl (by decide)).2 rfl⟩

/-! ## Reachability machinery for the ledger invariants -/

theorem lookupA_mem {α : Type} {m : List (Nat × α)} {k : Nat} {v : α}
    (h : lookupA m k = some v) : (k, v) ∈ m := by
  induction m with
  | nil => exact absurd h (by simp [lookupA])
  | cons hd tl ih =>
    obtain ⟨k0, v0⟩ := hd
    by_cases hk : k = k0
    · subst hk
      simp [lookupA] at h
      subst h
      exact List.mem_cons_self _ _
    · simp only [lookupA, if_neg hk] at h
      exact List.mem_cons_of_mem _ (ih h)

theorem lookupA_none_iff {α : Type} (m : List (Nat × α)) (k : Nat) :
    lookupA m k = none ↔ k ∉ m.map Prod.fst := by
  induction m with
  | nil => simp [lookupA]
  | cons hd tl ih =>
    obtain ⟨k0, v0⟩ := hd
    by_cases hk : k = k0
    · subst hk; simp [lookupA]
    · simp [lookupA, hk, ih]

theorem insertA_mem {α : Type} {m : List (Nat × α)} {k : Nat} {v : α} {e : Nat × α}
    (h : e ∈ insertA m k v) : e ∈ m ∨ e = (k, v) := by
  induction m with
  | nil => simp [insertA] at h; exact Or.inr h
  | cons hd tl ih =>
    obtain ⟨k0, v0⟩ := hd
    by_cases hk : k = k0
    · subst hk
      simp only [insertA, if_pos rfl] at h
      rcases List.mem_cons.mp h with h1 | h1
      · exact Or.inr h1
      · exact Or.inl (List.mem_cons_of_mem _ h1)
    · simp only [insertA, if_neg hk] at h
      rcases List.mem_cons.mp h with h1 | h1
      · exact Or.inl (h1 ▸ List.mem_cons_self _ _)
      · rcases ih h1 with h2 | h2
        · exact Or.inl (List.mem_cons_of_mem _ h2)
        · exact Or.inr h2

theorem insertA_fst {α : Type} (m : List (Nat × α)) (k : Nat) (v : α) :
    (insertA m k v).map Prod.fst =
      if (lookupA m k).isSome then m.map Prod.fst else m.map Prod.fst ++ [k] := by
  induction m with
  | nil => simp [insertA, lookupA]
  | cons hd tl ih =>
    obtain ⟨k0, v0⟩ := hd
    by_cases hk : k = k0
    · subst hk; simp [insertA, lookupA]
    · simp only [insertA, if_neg hk, lookupA, if_neg hk, List.map_cons, ih]
      by_cases hs : (lookupA tl k).isSome <;> simp [hs]

/-- The deposit-ledger lookup underlying `TxProcessor::deposit_amount`. -/
def depLookup (p : TxProcessor) (c : ClientID) (tx : TxID) : Option Amount :=
  lookupA ((lookupA p.deposits c).getD []) tx

theorem deposit_amount_ok {p : TxProcessor} {c : ClientID} {tx : TxID} {a : Amount}
    (h : p.deposit_amount c tx = .ok a) : depLookup p c tx = some a := by
  unfold TxProcessor.deposit_amount at h
  unfold depLookup
  rcases h1 : lookupA p.deposits c with _ | m
  · simp only [h1] at h
    exact absurd h (by simp)
  · simp only [h1] at h
    simp only [h1, Option.getD_some]
    rcases h2 : lookupA m tx with _ | a'
    · simp only [h2] at h
      exact absurd h (by simp)
    · simp only [h2, Except.ok.injEq] at h
      rw [h]

theorem process_deposits_shape {p p1 : TxProcessor} {t : Tx}
    {oe : Option TxProcessingError} (hp : p.process t = some (p1, oe)) :
    p1.deposits = p.deposits ∨
    (∃ c1 tx1 a1, t = .Deposit c1 tx1 a1 ∧
      lookupA ((lookupA p.deposits c1).getD []) tx1 = none ∧
      p1.deposits = insertA p.deposits c1
        (insertA ((lookupA p.deposits c1).getD []) tx1 a1)) := by
  cases t with
  | Deposit c1 tx a =>
    simp only [TxProcessor.process] at hp
    split at hp
    · simp only [Option.some.injEq, Prod.mk.injEq] at hp
      obtain ⟨rfl, rfl⟩ := hp
      exact Or.inl rfl
    · rcases hd : ((orInsertClient p.clients c1).2).deposit a with _ | e1 | cl'
      all_goals simp only [hd] at hp
      · exact Option.noConfusion hp
      · simp only [Option.some.injEq, Prod.mk.injEq] at hp
        obtain ⟨rfl, rfl⟩ := hp
        exact Or.inl rfl
      · split at hp
        · exact Option.noConfusion hp
        · next hdup =>
          simp only [Option.some.injEq, Prod.mk.injEq] at hp
          obtain ⟨rfl, rfl⟩ := hp
          refine Or.inr ⟨c1, tx, a, rfl, ?_, rfl⟩
          simpa using hdup
  | Withdrawal c1 tx a =>
    simp only [TxProcessor.process] at hp
    split at hp
    · simp only [Option.some.injEq, Prod.mk.injEq] at hp
      obtain ⟨rfl, rfl⟩ := hp
      exact Or.inl rfl
    · rcases hd : ((orInsertClient p.clients c1).2).withdraw a with e1 | cl'
      all_goals simp only [hd, Option.some.injEq, Prod.mk.injEq] at hp
      all_goals obtain ⟨rfl, rfl⟩ := hp
      all_goals exact Or.inl rfl
  | Dispute c1 tx =>
    simp only [TxProcessor.process] at hp
    rcases hda : p.deposit_amount c1 tx with e | a
    all_goals simp only [hda] at hp
    · simp only [Option.some.injEq, Prod.mk.injEq] at hp
      obtain ⟨rfl, rfl⟩ := hp
      exact Or.inl rfl
    · split at hp
      · simp only [Option.some.injEq, Prod.mk.injEq] at hp
        obtain ⟨rfl, rfl⟩ := hp
        exact Or.inl rfl
      · split at hp
        · simp only [Option.some.injEq, Prod.mk.injEq] at hp
          obtain ⟨rfl, rfl⟩ := hp
          exact Or.inl rfl
        · rcases hd : ((orInsertClient p.clients c1).2).dispute a with _ | e1 | cl'
          all_goals simp only [hd] at hp
          · exact Option.noConfusion hp
          · simp only [Option.some.injEq, Prod.mk.injEq] at hp
            obtain ⟨rfl, rfl⟩ := hp
            exact Or.inl rfl
          · simp only [Option.some.injEq, Prod.mk.injEq] at hp
            obtain ⟨rfl, rfl⟩ := hp
            exact Or.inl rfl
  | Resolve c1 tx =>
    simp only [TxProcessor.process] at hp
    rcases hda : p.deposit_amount c1 tx with e | a
    all_goals simp only [hda] at hp
    · simp only [Option.some.injEq, Prod.mk.injEq] at hp
      obtain ⟨rfl, rfl⟩ := hp
      exact Or.inl rfl
    · split at hp
      · split at hp
        · simp only [Option.some.injEq, Prod.mk.injEq] at hp
          obtain ⟨rfl, rfl⟩ := hp
          exact Or.inl rfl
        · rcases hd : ((orInsertClient p.clients c1).2).resolve a with _ | cl'
          all_goals simp only [hd] at hp
          · exact Option.noConfusion hp
          · simp only [Option.some.injEq, Prod.mk.injEq] at hp
            obtain ⟨rfl, rfl⟩ := hp
            exact Or.inl rfl
      · simp only [Option.some.injEq, Prod.mk.injEq] at hp
        obtain ⟨rfl, rfl⟩ := hp
        exact Or.inl rfl
  | Chargeback c1 tx =>
    simp only [TxProcessor.process] at hp
    rcases hda : p.deposit_amount c1 tx with e | a
    all_goals simp only [hda] at hp
    · simp only [Option.some.injEq, Prod.mk.injEq] at hp
      obtain ⟨rfl, rfl⟩ := hp
      exact Or.inl rfl
    · split at hp
      · split at hp
        · simp only [Option.some.injEq, Prod.mk.injEq] at hp
          obtain ⟨rfl, rfl⟩ := hp
          exact Or.inl rfl
        · rcases hd : ((orInsertClient p.clients c1).2).chargeback a with _ | cl'
          all_goals simp only [hd] at hp
          · exact Option.noConfusion hp
          · simp only [Option.some.injEq, Prod.mk.injEq] at hp
            obtain ⟨rfl, rfl⟩ := hp
            exact Or.inl rfl
      · simp only [Option.some.injEq, Prod.mk.injEq] at hp
        obtain ⟨rfl, rfl⟩ := hp
        exact Or.inl rfl

theorem step_dep_persist {p p1 : TxProcessor} {t : Tx}
    {oe : Option TxProcessingError} (hp : p.process t = some (p1, oe))
    {c : ClientID} {tx : TxID} {a : Amount} (hl : depLookup p c tx = some a) :
    depLookup p1 c tx = some a := by
  rcases process_deposits_shape hp with hsame | ⟨c1, tx1, a1, _, hnone, hins⟩
  · unfold depLookup at *
    rw [hsame]
    exact hl
  · unfold depLookup at *
    rw [hins, lookupA_insertA]
    by_cases hc : c = c1
    · subst hc
      rw [if_pos rfl, Option.getD_some, lookupA_insertA]
      by_cases htx : tx = tx1
      · subst htx
        rw [hl] at hnone
        exact Option.noConfusion hnone
      · rw [if_neg htx]
        exact hl
    · rw [if_neg hc]
      exact hl

theorem run_dep_persist {txs : List Tx} {p p' : TxProcessor}
    {es : List (Option TxProcessingError)}
    (hr : runTrace p txs = some (p', es))
    {c : ClientID} {tx : TxID} {a : Amount} (hl : depLookup p c tx = some a) :
    depLookup p' c tx = some a := by
  induction txs generalizing p es with
  | nil =>
    simp only [runTrace, Option.some.injEq, Prod.mk.injEq] at hr
    obtain ⟨rfl, rfl⟩ := hr
    exact hl
  | cons t ts ih =>
    simp only [runTrace] at hr
    rcases hstep : p.process t with _ | pr
    · simp only [hstep] at hr
      exact Option.noConfusion hr
    · obtain ⟨p1, e⟩ := pr
      simp only [hstep] at hr
      rcases hrun : runTrace p1 ts with _ | pr2
      · simp only [hrun] at hr
        exact Option.noConfusion hr
      · obtain ⟨p2, es2⟩ := pr2
        simp only [hrun, Option.some.injEq, Prod.mk.injEq] at hr
        obtain ⟨⟨rfl, rfl⟩, rfl⟩ := hr
        exact ih hrun (step_dep_persist hstep hl)

theorem checkedAdd_some_iff {x y z : Amount} :
    x.checkedAdd y = some z ↔ x.units + y.units < U64SIZE ∧ z = ⟨x.units + y.units⟩ := by
  unfold Amount.checkedAdd checkedAddM
  by_cases h : x.units + y.units < U64SIZE <;> simp [h, eq_comm]

theorem checkedAdd_isSome_iff {x y : Amount} :
    (x.checkedAdd y).isSome ↔ x.units + y.units < U64SIZE := by
  unfold Amount.checkedAdd checkedAddM
  by_cases h : x.units + y.units < U64SIZE <;> simp [h]

theorem checkedSub_some_iff {x y z : Amount} :
    x.checkedSub y = some z ↔ y.units ≤ x.units ∧ z = ⟨x.units - y.units⟩ := by
  unfold Amount.checkedSub checkedSubM
  by_cases h : y.units ≤ x.units <;> simp [h, eq_comm]

theorem totalOf_some_iff {cl : Client} {t : Amount} :
    cl.totalOf = some t ↔
      cl.available.units + cl.held.units < U64SIZE ∧
      t = ⟨cl.available.units + cl.held.units⟩ := by
  unfold Client.totalOf
  exact checkedAdd_some_iff

theorem deposit_ok_inv {cl cl' : Client} {a : Amount}
    (h : cl.deposit a = some (.ok cl')) :
    cl' = { cl with available := ⟨cl.available.units + a.units⟩ } ∧
    cl.available.units + cl.held.units + a.units < U64SIZE := by
  unfold Client.deposit at h
  rcases ht : cl.totalOf with _ | t
  · simp only [ht] at h
    exact Option.noConfusion h
  · obtain ⟨hbound, rfl⟩ := totalOf_some_iff.mp ht
    simp only [ht] at h
    split at h
    · next hsome =>
      rcases hav : cl.available.checkedAdd a with _ | av
      all_goals simp only [hav] at h
      · exact Option.noConfusion h
      · obtain ⟨h1, rfl⟩ := checkedAdd_some_iff.mp hav
        simp only [Option.some.injEq, Except.ok.injEq] at h
        rw [checkedAdd_isSome_iff] at hsome
        exact ⟨h.symm, hsome⟩
    · exact absurd h (by simp)

theorem deposit_err_inv {cl : Client} {a : Amount} {e : TxProcessingError}
    (h : cl.deposit a = some (.error e)) : e = .AmountOverflow := by
  unfold Client.deposit at h
  rcases ht : cl.totalOf with _ | t
  · simp only [ht] at h
    exact Option.noConfusion h
  · simp only [ht] at h
    split at h
    · rcases hav : cl.available.checkedAdd a with _ | av
      all_goals simp only [hav] at h
      · exact Option.noConfusion h
      · exact absurd h (by simp)
    · simp only [Option.some.injEq, Except.error.injEq] at h
      exact h.symm

theorem withdraw_ok_inv {cl cl' : Client} {a : Amount}
    (h : cl.withdraw a = .ok cl') :
    cl' = { cl with available := ⟨cl.available.units - a.units⟩ } ∧
    a.units ≤ cl.available.units := by
  unfold Client.withdraw at h
  rcases hs : cl.available.checkedSub a with _ | x
  all_goals simp only [hs] at h
  · exact Except.noConfusion h
  · obtain ⟨h1, rfl⟩ := checkedSub_some_iff.mp hs
    simp only [Except.ok.injEq] at h
    exact ⟨h.symm, h1⟩

theorem dispute_ok_inv {cl cl' : Client} {a : Amount}
    (h : cl.dispute a = some (.ok cl')) :
    cl' = { cl with available := ⟨cl.available.units - a.units⟩,
                    held := ⟨cl.held.units + a.units⟩ } ∧
    a.units ≤ cl.available.units ∧ cl.held.units + a.units < U64SIZE := by
  unfold Client.dispute at h
  rcases hs : cl.available.checkedSub a with _ | x
  all_goals simp only [hs] at h
  · exact absurd h (by simp)
  · obtain ⟨h1, rfl⟩ := checkedSub_some_iff.mp hs
    rcases hh : cl.held.checkedAdd a with _ | hh1
    all_goals simp only [hh] at h
    · exact Option.noConfusion h
    · obtain ⟨h2, rfl⟩ := checkedAdd_some_iff.mp hh
      simp only [Option.some.injEq, Except.ok.injEq] at h
      exact ⟨h.symm, h1, h2⟩

theorem resolve_ok_inv {cl cl' : Client} {a : Amount}
    (h : cl.resolve a = some cl') :
    cl' = { cl with available := ⟨cl.available.units + a.units⟩,
                    held := ⟨cl.held.units - a.units⟩ } ∧
    cl.available.units + a.units < U64SIZE ∧ a.units ≤ cl.held.units := by
  unfold Client.resolve at h
  rcases hav : cl.available.checkedAdd a with _ | av
  all_goals simp only [hav] at h
  · exact Option.noConfusion h
  · obtain ⟨h1, rfl⟩ := checkedAdd_some_iff.mp hav
    rcases hh : cl.held.checkedSub a with _ | hh1
    all_goals simp only [hh] at h
    · exact Option.noConfusion h
    · obtain ⟨h2, rfl⟩ := checkedSub_some_iff.mp hh
      simp only [Option.some.injEq] at h
      exact ⟨h.symm, h1, h2⟩

theorem chargeback_ok_inv {cl cl' : Client} {a : Amount}
    (h : cl.chargeback a = some cl') :
    cl' = { cl with held := ⟨cl.held.units - a.units⟩, locked := true } ∧
    a.units ≤ cl.held.units := by
  unfold Client.chargeback at h
  rcases hh : cl.held.checkedSub a with _ | hh1
  all_goals simp only [hh] at h
  · exact Option.noConfusion h
  · obtain ⟨h2, rfl⟩ := checkedSub_some_iff.mp hh
    simp only [Option.some.injEq] at h
    exact ⟨h.symm, h2⟩

/-- Balance (available + held, in units) of a client in an engine state;
an absent account counts as a fresh one (0). -/
def TxProcessor.bal (p : TxProcessor) (c : ClientID) : Nat :=
  ((lookupA p.clients c).getD Client.new).available.units +
  ((lookupA p.clients c).getD Client.new).held.units

/-- Contribution of one event to the sum of successful deposits of client c. -/
def depDelta (c : ClientID) (t : Tx) (e : Option TxProcessingError) : Nat :=
  match t, e with
  | .Deposit c1 _ a, none => if c1 = c then a.units else 0
  | _, _ => 0

/-- Contribution of one event to the sum of successful withdrawals of client c. -/
def wdDelta (c : ClientID) (t : Tx) (e : Option TxProcessingError) : Nat :=
  match t, e with
  | .Withdrawal c1 _ a, none => if c1 = c then a.units else 0
  | _, _ => 0

/-- Contribution of one event to the sum of successful chargebacks of client
c; the charged-back amount is read from the deposit ledger `dep` (deposit
amounts are immutable once recorded, so the final ledger of a run gives the
amount each chargeback moved). -/
def cbDelta (dep : List (ClientID × List (TxID × Amount))) (c : ClientID)
    (t : Tx) (e : Option TxProcessingError) : Nat :=
  match t, e with
  | .Chargeback c1 tx, none =>
    if c1 = c then ((lookupA ((lookupA dep c1).getD []) tx).getD ⟨0⟩).units else 0
  | _, _ => 0

/-- Sum of the amounts of the successful deposits of client c in a trace. -/
def depSum (c : ClientID) (txs : List Tx) (es : List (Option TxProcessingError)) : Nat :=
  ((txs.zip es).map (fun pr => depDelta c pr.1 pr.2)).sum

/-- Sum of the amounts of the successful withdrawals of client c in a trace. -/
def wdSum (c : ClientID) (txs : List Tx) (es : List (Option TxProcessingError)) : Nat :=
  ((txs.zip es).map (fun pr => wdDelta c pr.1 pr.2)).sum

/-- Sum of the amounts of the successful chargebacks of client c in a trace. -/
def cbSum (dep : List (ClientID × List (TxID × Amount))) (c : ClientID)
    (txs : List Tx) (es : List (Option TxProcessingError)) : Nat :=
  ((txs.zip es).map (fun pr => cbDelta dep c pr.1 pr.2)).sum

theorem getD_orInsert (m : List (ClientID × Client)) (c1 c : ClientID) :
    (lookupA (orInsertClient m c1).1 c).getD Client.new =
      (lookupA m c).getD Client.new := by
  rw [orInsertClient_lookup]
  by_cases h : c = c1
  · subst h; cases lookupA m c <;> simp
  · simp [h]

theorem getD_insert_or (m : List (ClientID × Client)) (c1 c : ClientID) (cl' : Client) :
    (lookupA (insertA (orInsertClient m c1).1 c1 cl') c).getD Client.new =
      if c = c1 then cl' else (lookupA m c).getD Client.new := by
  rw [lookupA_insertA]
  by_cases h : c = c1
  · simp [h]
  · simp [h, orInsertClient_lookup]

theorem bal_step {p p1 : TxProcessor} {t : Tx} {oe : Option TxProcessingError}
    (hp : p.process t = some (p1, oe)) (pfin : TxProcessor)
    (hpers : ∀ c1 tx a, depLookup p1 c1 tx = some a → depLookup pfin c1 tx = some a)
    (c : ClientID) :
    p1.bal c + wdDelta c t oe + cbDelta pfin.deposits c t oe
      = p.bal c + depDelta c t oe := by
  cases t with
  | Deposit c1 tx a =>
    simp only [TxProcessor.process] at hp
    split at hp
    · simp only [Option.some.injEq, Prod.mk.injEq] at hp
      obtain ⟨rfl, rfl⟩ := hp
      simp [TxProcessor.bal, getD_orInsert, wdDelta, cbDelta, depDelta]
    · rcases hd : ((orInsertClient p.clients c1).2).deposit a with _ | e1 | cl'
      all_goals simp only [hd] at hp
      · exact Option.noConfusion hp
      · simp only [Option.some.injEq, Prod.mk.injEq] at hp
        obtain ⟨rfl, rfl⟩ := hp
        simp [TxProcessor.bal, getD_orInsert, wdDelta, cbDelta, depDelta]
      · split at hp
        · exact Option.noConfusion hp
        · simp only [Option.some.injEq, Prod.mk.injEq] at hp
          obtain ⟨rfl, rfl⟩ := hp
          obtain ⟨rfl, hbound⟩ := deposit_ok_inv hd
          rw [orInsertClient_val] at hbound
          simp only [TxProcessor.bal, getD_insert_or, orInsertClient_val,
            wdDelta, cbDelta, depDelta]
          by_cases hc : c = c1
          · subst hc; first | omega | (simp; try omega)
          · have hc2 : ¬c1 = c := fun h => hc (Eq.symm h)
            first | omega | (simp [hc, hc2]; try omega)
  | Withdrawal c1 tx a =>
    simp only [TxProcessor.process] at hp
    split at hp
    · simp only [Option.some.injEq, Prod.mk.injEq] at hp
      obtain ⟨rfl, rfl⟩ := hp
      simp [TxProcessor.bal, getD_orInsert, wdDelta, cbDelta, depDelta]
    · rcases hd : ((orInsertClient p.clients c1).2).withdraw a with e1 | cl'
      all_goals simp only [hd, Option.some.injEq, Prod.mk.injEq] at hp
      all_goals obtain ⟨rfl, rfl⟩ := hp
      · simp [TxProcessor.bal, getD_orInsert, wdDelta, cbDelta, depDelta]
      · obtain ⟨rfl, hle⟩ := withdraw_ok_inv hd
        rw [orInsertClient_val] at hle
        simp only [TxProcessor.bal, getD_insert_or, orInsertClient_val,
          wdDelta, cbDelta, depDelta]
        by_cases hc : c = c1
        · subst hc; first | omega | (simp; try omega)
        · have hc2 : ¬c1 = c := fun h => hc (Eq.symm h)
          first | omega | (simp [hc, hc2]; try omega)
  | Dispute c1 tx =>
    simp only [TxProcessor.process] at hp
    rcases hda : p.deposit_amount c1 tx with e | a
    all_goals simp only [hda] at hp
    · simp only [Option.some.injEq, Prod.mk.injEq] at hp
      obtain ⟨rfl, rfl⟩ := hp
      simp [wdDelta, cbDelta, depDelta]
    · split at hp
      · simp only [Option.some.injEq, Prod.mk.injEq] at hp
        obtain ⟨rfl, rfl⟩ := hp
        simp [wdDelta, cbDelta, depDelta]
      · split at hp
        · simp only [Option.some.injEq, Prod.mk.injEq] at hp
          obtain ⟨rfl, rfl⟩ := hp
          simp [TxProcessor.bal, getD_orInsert, wdDelta, cbDelta, depDelta]
        · rcases hd : ((orInsertClient p.clients c1).2).dispute a with _ | e1 | cl'
          all_goals simp only [hd] at hp
          · exact Option.noConfusion hp
          · simp only [Option.some.injEq, Prod.mk.injEq] at hp
            obtain ⟨rfl, rfl⟩ := hp
            simp [TxProcessor.bal, getD_orInsert, wdDelta, cbDelta, depDelta]
          · simp only [Option.some.injEq, Prod.mk.injEq] at hp
            obtain ⟨rfl, rfl⟩ := hp
            obtain ⟨rfl, hle, hbound⟩ := dispute_ok_inv hd
            rw [orInsertClient_val] at hle hbound
            simp only [TxProcessor.bal, getD_insert_or, orInsertClient_val,
              wdDelta, cbDelta, depDelta]
            by_cases hc : c = c1
            · subst hc; first | omega | (simp; try omega)
            · have hc2 : ¬c1 = c := fun h => hc (Eq.symm h)
              first | omega | (simp [hc, hc2]; try omega)
  | Resolve c1 tx =>
    simp only [TxProcessor.process] at hp
    rcases hda : p.deposit_amount c1 tx with e | a
    all_goals simp only [hda] at hp
    · simp only [Option.some.injEq, Prod.mk.injEq] at hp
      obtain ⟨rfl, rfl⟩ := hp
      simp [wdDelta, cbDelta, depDelta]
    · split at hp
      · split at hp
        · simp only [Option.some.injEq, Prod.mk.injEq] at hp
          obtain ⟨rfl, rfl⟩ := hp
          simp [TxProcessor.bal, getD_orInsert, wdDelta, cbDelta, depDelta]
        · rcases hd : ((orInsertClient p.clients c1).2).resolve a with _ | cl'
          all_goals simp only [hd] at hp
          · exact Option.noConfusion hp
          · simp only [Option.some.injEq, Prod.mk.injEq] at hp
            obtain ⟨rfl, rfl⟩ := hp
            obtain ⟨rfl, hbound, hle⟩ := resolve_ok_inv hd
            rw [orInsertClient_val] at hle hbound
            simp only [TxProcessor.bal, getD_insert_or, orInsertClient_val,
              wdDelta, cbDelta, depDelta]
            by_cases hc : c = c1
            · subst hc; first | omega | (simp; try omega)
            · have hc2 : ¬c1 = c := fun h => hc (Eq.symm h)
              first | omega | (simp [hc, hc2]; try omega)
      · simp only [Option.some.injEq, Prod.mk.injEq] at hp
        obtain ⟨rfl, rfl⟩ := hp
        simp [wdDelta, cbDelta, depDelta]
  | Chargeback c1 tx =>
    simp only [TxProcessor.process] at hp
    rcases hda : p.deposit_amount c1 tx with e | a
    all_goals simp only [hda] at hp
    · simp only [Option.some.injEq, Prod.mk.injEq] at hp
      obtain ⟨rfl, rfl⟩ := hp
      simp [wdDelta, cbDelta, depDelta]
    · split at hp
      · split at hp
        · simp only [Option.some.injEq, Prod.mk.injEq] at hp
          obtain ⟨rfl, rfl⟩ := hp
          simp [TxProcessor.bal, getD_orInsert, wdDelta, cbDelta, depDelta]
        · rcases hd : ((orInsertClient p.clients c1).2).chargeback a with _ | cl'
          all_goals simp only [hd] at hp
          · exact Option.noConfusion hp
          · simp only [Option.some.injEq, Prod.mk.injEq] at hp
            obtain ⟨rfl, rfl⟩ := hp
            obtain ⟨rfl, hle⟩ := chargeback_ok_inv hd
            rw [orInsertClient_val] at hle
            have ha : depLookup pfin c1 tx = some a := by
              apply hpers
              have h0 : depLookup p c1 tx = some a := deposit_amount_ok hda
              unfold depLookup at h0 ⊢
              exact h0
            simp only [TxProcessor.bal, getD_insert_or, orInsertClient_val,
              wdDelta, cbDelta, depDelta]
            unfold depLookup at ha
            rw [ha]
            by_cases hc : c = c1
            · subst hc; first | omega | (simp; try omega)
            · have hc2 : ¬c1 = c := fun h => hc (Eq.symm h)
              first | omega | (simp [hc, hc2]; try omega)
      · simp only [Option.some.injEq, Prod.mk.injEq] at hp
        obtain ⟨rfl, rfl⟩ := hp
        simp [wdDelta, cbDelta, depDelta]

theorem run_bal {txs : List Tx} {p p' : TxProcessor}
    {es : List (Option TxProcessingError)}
    (hr : runTrace p txs = some (p', es)) (c : ClientID) :
    p'.bal c + wdSum c txs es + cbSum p'.deposits c txs es
      = p.bal c + depSum c txs es := by
  induction txs generalizing p es with
  | nil =>
    simp only [runTrace, Option.some.injEq, Prod.mk.injEq] at hr
    obtain ⟨rfl, rfl⟩ := hr
    simp [wdSum, cbSum, depSum]
  | cons t ts ih =>
    simp only [runTrace] at hr
    rcases hstep : p.process t with _ | pr
    · simp only [hstep] at hr
      exact Option.noConfusion hr
    · obtain ⟨p1, e⟩ := pr
      simp only [hstep] at hr
      rcases hrun : runTrace p1 ts with _ | pr2
      · simp only [hrun] at hr
        exact Option.noConfusion hr
      · obtain ⟨p2, es2⟩ := pr2
        simp only [hrun, Option.some.injEq, Prod.mk.injEq] at hr
        obtain ⟨⟨rfl, rfl⟩, rfl⟩ := hr
        have hsb := bal_step hstep p' (fun c1 tx a h => run_dep_persist hrun h) c
        have hih := ih hrun
        simp only [wdSum, cbSum, depSum, List.zip_cons_cons, List.map_cons,
          List.sum_cons] at hih hsb ⊢
        omega

/-- Every recorded account's available + held fits in the u64 domain. -/
def ClientsBounded (p : TxProcessor) : Prop :=
  ∀ e ∈ p.clients, e.2.available.units + e.2.held.units < U64SIZE

theorem new_bounded : ClientsBounded TxProcessor.new := by
  intro e he
  simp [TxProcessor.new] at he

theorem getD_bounded {p : TxProcessor} (hB : ClientsBounded p) (c : ClientID) :
    ((lookupA p.clients c).getD Client.new).available.units +
      ((lookupA p.clients c).getD Client.new).held.units < U64SIZE := by
  rcases hcl : lookupA p.clients c with _ | cl
  · simp [Client.new, Amount.new, U64SIZE]
  · exact hB _ (lookupA_mem hcl)

theorem orInsert_bounded {m : List (ClientID × Client)} {c1 : ClientID}
    (hB : ∀ e ∈ m, e.2.available.units + e.2.held.units < U64SIZE) :
    ∀ e ∈ (orInsertClient m c1).1, e.2.available.units + e.2.held.units < U64SIZE := by
  intro e he
  unfold orInsertClient at he
  rcases h : lookupA m c1 with _ | cl
  · rw [h] at he
    simp only [List.mem_append, List.mem_singleton] at he
    rcases he with he | he
    · exact hB e he
    · subst he
      simp [Client.new, Amount.new, U64SIZE]
  · rw [h] at he
    exact hB e he

theorem insert_or_bounded {m : List (ClientID × Client)} {c1 : ClientID} {cl' : Client}
    (hB : ∀ e ∈ m, e.2.available.units + e.2.held.units < U64SIZE)
    (hcl' : cl'.available.units + cl'.held.units < U64SIZE) :
    ∀ e ∈ insertA (orInsertClient m c1).1 c1 cl',
      e.2.available.units + e.2.held.units < U64SIZE := by
  intro e he
  rcases insertA_mem he with h1 | h1
  · exact orInsert_bounded hB e h1
  · subst h1
    exact hcl'

theorem bounded_step {p p1 : TxProcessor} {t : Tx} {oe : Option TxProcessingError}
    (hB : ClientsBounded p) (hp : p.process t = some (p1, oe)) :
    ClientsBounded p1 := by
  have hBgetD := fun c1 => getD_bounded hB c1
  cases t with
  | Deposit c1 tx a =>
    simp only [TxProcessor.process] at hp
    split at hp
    · simp only [Option.some.injEq, Prod.mk.injEq] at hp
      obtain ⟨rfl, rfl⟩ := hp
      exact orInsert_bounded hB
    · rcases hd : ((orInsertClient p.clients c1).2).deposit a with _ | e1 | cl'
      all_goals simp only [hd] at hp
      · exact Option.noConfusion hp
      · simp only [Option.some.injEq, Prod.mk.injEq] at hp
        obtain ⟨rfl, rfl⟩ := hp
        exact orInsert_bounded hB
      · split at hp
        · exact Option.noConfusion hp
        · simp only [Option.some.injEq, Prod.mk.injEq] at hp
          obtain ⟨rfl, rfl⟩ := hp
          obtain ⟨rfl, hbound⟩ := deposit_ok_inv hd
          rw [orInsertClient_val] at hbound
          refine insert_or_bounded hB ?_
          simp only [orInsertClient_val]
          try simp
          omega
  | Withdrawal c1 tx a =>
    simp only [TxProcessor.process] at hp
    split at hp
    · simp only [Option.some.injEq, Prod.mk.injEq] at hp
      obtain ⟨rfl, rfl⟩ := hp
      exact orInsert_bounded hB
    · rcases hd : ((orInsertClient p.clients c1).2).withdraw a with e1 | cl'
      all_goals simp only [hd, Option.some.injEq, Prod.mk.injEq] at hp
      all_goals obtain ⟨rfl, rfl⟩ := hp
      · exact orInsert_bounded hB
      · obtain ⟨rfl, hle⟩ := withdraw_ok_inv hd
        rw [orInsertClient_val] at hle
        refine insert_or_bounded hB ?_
        simp only [orInsertClient_val]
        try simp
        have := hBgetD c1
        omega
  | Dispute c1 tx =>
    simp only [TxProcessor.process] at hp
    rcases hda : p.deposit_amount c1 tx with e | a
    all_goals simp only [hda] at hp
    · simp only [Option.some.injEq, Prod.mk.injEq] at hp
      obtain ⟨rfl, rfl⟩ := hp
      exact hB
    · split at hp
      · simp only [Option.some.injEq, Prod.mk.injEq] at hp
        obtain ⟨rfl, rfl⟩ := hp
        exact hB
      · split at hp
        · simp only [Option.some.injEq, Prod.mk.injEq] at hp
          obtain ⟨rfl, rfl⟩ := hp
          exact orInsert_bounded hB
        · rcases hd : ((orInsertClient p.clients c1).2).dispute a with _ | e1 | cl'
          all_goals simp only [hd] at hp
          · exact Option.noConfusion hp
          · simp only [Option.some.injEq, Prod.mk.injEq] at hp
            obtain ⟨rfl, rfl⟩ := hp
            exact orInsert_bounded hB
          · simp only [Option.some.injEq, Prod.mk.injEq] at hp
            obtain ⟨rfl, rfl⟩ := hp
            obtain ⟨rfl, hle, hbound⟩ := dispute_ok_inv hd
            rw [orInsertClient_val] at hle hbound
            refine insert_or_bounded hB ?_
            simp only [orInsertClient_val]
            try simp
            have := hBgetD c1
            omega
  | Resolve c1 tx =>
    simp only [TxProcessor.process] at hp
    rcases hda : p.deposit_amount c1 tx with e | a
    all_goals simp only [hda] at hp
    · simp only [Option.some.injEq, Prod.mk.injEq] at hp
      obtain ⟨rfl, rfl⟩ := hp
      exact hB
    · split at hp
      · split at hp
        · simp only [Option.some.injEq, Prod.mk.injEq] at hp
          obtain ⟨rfl, rfl⟩ := hp
          exact orInsert_bounded hB
        · rcases hd : ((orInsertClient p.clients c1).2).resolve a with _ | cl'
          all_goals simp only [hd] at hp
          · exact Option.noConfusion hp
          · simp only [Option.some.injEq, Prod.mk.injEq] at hp
            obtain ⟨rfl, rfl⟩ := hp
            obtain ⟨rfl, hbound, hle⟩ := resolve_ok_inv hd
            rw [orInsertClient_val] at hle hbound
            refine insert_or_bounded hB ?_
            simp only [orInsertClient_val]
            try simp
            have := hBgetD c1
            omega
      · simp only [Option.some.injEq, Prod.mk.injEq] at hp
        obtain ⟨rfl, rfl⟩ := hp
        exact hB
  | Chargeback c1 tx =>
    simp only [TxProcessor.process] at hp
    rcases hda : p.deposit_amount c1 tx with e | a
    all_goals simp only [hda] at hp
    · simp only [Option.some.injEq, Prod.mk.injEq] at hp
      obtain ⟨rfl, rfl⟩ := hp
      exact hB
    · split at hp
      · split at hp
        · simp only [Option.some.injEq, Prod.mk.injEq] at hp
          obtain ⟨rfl, rfl⟩ := hp
          exact orInsert_bounded hB
        · rcases hd : ((orInsertClient p.clients c1).2).chargeback a with _ | cl'
          all_goals simp only [hd] at hp
          · exact Option.noConfusion hp
          · simp only [Option.some.injEq, Prod.mk.injEq] at hp
            obtain ⟨rfl, rfl⟩ := hp
            obtain ⟨rfl, hle⟩ := chargeback_ok_inv hd
            rw [orInsertClient_val] at hle
            refine insert_or_bounded hB ?_
            simp only [orInsertClient_val]
            try simp
            have := hBgetD c1
            omega
      · simp only [Option.some.injEq, Prod.mk.injEq] at hp
        obtain ⟨rfl, rfl⟩ := hp
        exact hB

theorem bounded_run {txs : List Tx} {p p' : TxProcessor}
    {es : List (Option TxProcessingError)}
    (hB : ClientsBounded p) (hr : runTrace p txs = some (p', es)) :
    ClientsBounded p' := by
  induction txs generalizing p es with
  | nil =>
    simp only [runTrace, Option.some.injEq, Prod.mk.injEq] at hr
    obtain ⟨rfl, rfl⟩ := hr
    exact hB
  | cons t ts ih =>
    simp only [runTrace] at hr
    rcases hstep : p.process t with _ | pr
    · simp only [hstep] at hr
      exact Option.noConfusion hr
    · obtain ⟨p1, e⟩ := pr
      simp only [hstep] at hr
      rcases hrun : runTrace p1 ts with _ | pr2
      · simp only [hrun] at hr
        exact Option.noConfusion hr
      · obtain ⟨p2, es2⟩ := pr2
        simp only [hrun, Option.some.injEq, Prod.mk.injEq] at hr
        obtain ⟨⟨rfl, rfl⟩, rfl⟩ := hr
        exact ih (bounded_step hB hstep) hrun

/-- C2: for a sequence of events all for one client, with failed events
dropped, the resulting account satisfies available + held == total (the
derived total is defined and equals their sum), and total equals the sum of
the successful deposits minus the successful withdrawals minus the
successful chargebacks (stated additively over Nat: available + held +
withdrawals + chargebacks = deposits; disputes and resolves do not appear,
they only redistribute). -/
theorem claim_C2 (c : ClientID) (txs : List Tx) (p : TxProcessor)
    (es : List (Option TxProcessingError))
    (hone : ∀ t ∈ txs, t.client = c)
    (hr : runTrace TxProcessor.new txs = some (p, es)) :
    (((lookupA p.clients c).getD Client.new).totalOf
        = some ⟨((lookupA p.clients c).getD Client.new).available.units +
                ((lookupA p.clients c).getD Client.new).held.units⟩) ∧
    ((lookupA p.clients c).getD Client.new).available.units +
        ((lookupA p.clients c).getD Client.new).held.units +
        wdSum c txs es + cbSum p.deposits c txs es
      = depSum c txs es := by
  have hB : ClientsBounded p := bounded_run new_bounded hr
  have hbal := run_bal hr c
  constructor
  · rw [totalOf_some_iff]
    exact ⟨getD_bounded hB c, rfl⟩
  · unfold TxProcessor.bal at hbal
    have hz1 : ((lookupA TxProcessor.new.clients c).getD Client.new).available.units = 0 := rfl
    have hz2 : ((lookupA TxProcessor.new.clients c).getD Client.new).held.units = 0 := rfl
    rw [hz1, hz2] at hbal
    omega

/-- The one-client event list of the C2 witness. -/
def txsC2w : List Tx := [.Deposit 1 1 ⟨10⟩, .Withdrawal 1 2 ⟨3⟩]

/-- The final engine state of the C2 witness run. -/
def pC2w : TxProcessor := ⟨[(1, ⟨⟨7⟩, ⟨0⟩, false⟩)], [(1, [(1, ⟨10⟩)])], []⟩

/-- Witness for C2 on a concrete two-event run. -/
theorem claim_C2_witness :
    (((lookupA pC2w.clients 1).getD Client.new).totalOf
        = some ⟨((lookupA pC2w.clients 1).getD Client.new).available.units +
                ((lookupA pC2w.clients 1).getD Client.new).held.units⟩) ∧
    ((lookupA pC2w.clients 1).getD Client.new).available.units +
        ((lookupA pC2w.clients 1).getD Client.new).held.units +
        wdSum 1 txsC2w [none, none] + cbSum pC2w.deposits 1 txsC2w [none, none]
      = depSum 1 txsC2w [none, none] :=
  claim_C2 1 txsC2w pC2w [none, none] (by decide) rfl

/-- Clients referenced by Deposit or Withdrawal events (the account-creating
events) of a sequence. -/
def dwClients : List Tx → List ClientID
  | [] => []
  | .Deposit c _ _ :: ts => c :: dwClients ts
  | .Withdrawal c _ _ :: ts => c :: dwClients ts
  | _ :: ts => dwClients ts

/-- Whether one event is a Deposit or Withdrawal for client c. -/
def dwHit (t : Tx) (c : ClientID) : Prop :=
  match t with
  | .Deposit c1 _ _ => c1 = c
  | .Withdrawal c1 _ _ => c1 = c
  | _ => False

/-- The deposit ledger only mentions clients that have an account. -/
def DepDom (p : TxProcessor) : Prop :=
  ∀ c, (lookupA p.deposits c).isSome = true → (lookupA p.clients c).isSome = true

/-- Well-formedness of the engine state: duplicate-free client keys and
deposit-ledger clients having accounts. -/
def WF (p : TxProcessor) : Prop :=
  (p.clients.map Prod.fst).Nodup ∧ DepDom p

theorem depLookup_outer {p : TxProcessor} {c : ClientID} {tx : TxID} {a : Amount}
    (h : depLookup p c tx = some a) : (lookupA p.deposits c).isSome = true := by
  unfold depLookup at h
  rcases h1 : lookupA p.deposits c with _ | m
  · rw [h1] at h
    simp [lookupA] at h
  · simp

theorem isSome_orInsert (m : List (ClientID × Client)) (c1 c : ClientID) :
    (lookupA (orInsertClient m c1).1 c).isSome = true ↔
      (lookupA m c).isSome = true ∨ c = c1 := by
  rw [orInsertClient_lookup]
  by_cases h : c = c1 <;> simp [h]

theorem isSome_insert_or (m : List (ClientID × Client)) (c1 c : ClientID) (cl' : Client) :
    (lookupA (insertA (orInsertClient m c1).1 c1 cl') c).isSome = true ↔
      (lookupA m c).isSome = true ∨ c = c1 := by
  rw [lookupA_insertA]
  by_cases h : c = c1 <;> simp [h, orInsertClient_lookup]

theorem orInsert_fst (m : List (ClientID × Client)) (c : ClientID) :
    (orInsertClient m c).1.map Prod.fst =
      if (lookupA m c).isSome then m.map Prod.fst else m.map Prod.fst ++ [c] := by
  unfold orInsertClient
  rcases h : lookupA m c with _ | cl <;> simp

theorem insert_or_fst (m : List (ClientID × Client)) (c1 : ClientID) (cl' : Client) :
    (insertA (orInsertClient m c1).1 c1 cl').map Prod.fst =
      (orInsertClient m c1).1.map Prod.fst := by
  rw [insertA_fst]
  have h : (lookupA (orInsertClient m c1).1 c1).isSome = true := by
    rw [orInsertClient_lookup]
    simp
  rw [if_pos h]

theorem orInsert_nodup {m : List (ClientID × Client)} {c : ClientID}
    (h : (m.map Prod.fst).Nodup) :
    ((orInsertClient m c).1.map Prod.fst).Nodup := by
  rw [orInsert_fst]
  rcases hl : lookupA m c with _ | cl
  · simp only [hl, Option.isSome_none, Bool.false_eq_true, if_false]
    rw [List.nodup_append]
    exact ⟨h, List.nodup_singleton c,
      by simpa using (lookupA_none_iff m c).mp hl⟩
  · simp only [hl, Option.isSome_some, if_true]
    exact h

theorem mem_lookupA_of_nodup {α : Type} {m : List (Nat × α)} {k : Nat} {v : α}
    (hnd : (m.map Prod.fst).Nodup) (hm : (k, v) ∈ m) : lookupA m k = some v := by
  induction m with
  | nil => exact absurd hm (List.not_mem_nil _)
  | cons hd tl ih =>
    obtain ⟨k0, v0⟩ := hd
    simp only [List.map_cons, List.nodup_cons] at hnd
    rcases List.mem_cons.mp hm with h1 | h1
    · obtain ⟨rfl, rfl⟩ := Prod.mk.injEq .. ▸ h1
      simp [lookupA]
    · have hk : k ≠ k0 := by
        intro h
        subst h
        exact hnd.1 (List.mem_map.mpr ⟨(k, v), h1, rfl⟩)
      simp only [lookupA, if_neg hk]
      exact ih hnd.2 h1

theorem wf_step {p p1 : TxProcessor} {t : Tx} {oe : Option TxProcessingError}
    (hW : WF p) (hp : p.process t = some (p1, oe)) :
    WF p1 ∧ (∀ c, (lookupA p1.clients c).isSome = true ↔
      ((lookupA p.clients c).isSome = true ∨ dwHit t c)) := by
  obtain ⟨hnd, hD⟩ := hW
  cases t with
  | Deposit c1 tx a =>
    simp only [TxProcessor.process] at hp
    split at hp
    · simp only [Option.some.injEq, Prod.mk.injEq] at hp
      obtain ⟨rfl, rfl⟩ := hp
      refine ⟨⟨orInsert_nodup hnd, ?_⟩, fun c => ?_⟩
      · intro c hc
        rw [isSome_orInsert]
        exact Or.inl (hD c hc)
      · rw [isSome_orInsert]
        simp only [dwHit]; exact or_congr Iff.rfl ⟨Eq.symm, Eq.symm⟩
    · rcases hd : ((orInsertClient p.clients c1).2).deposit a with _ | e1 | cl'
      all_goals simp only [hd] at hp
      · exact Option.noConfusion hp
      · simp only [Option.some.injEq, Prod.mk.injEq] at hp
        obtain ⟨rfl, rfl⟩ := hp
        refine ⟨⟨orInsert_nodup hnd, ?_⟩, fun c => ?_⟩
        · intro c hc
          rw [isSome_orInsert]
          exact Or.inl (hD c hc)
        · rw [isSome_orInsert]
          simp only [dwHit]; exact or_congr Iff.rfl ⟨Eq.symm, Eq.symm⟩
      · split at hp
        · exact Option.noConfusion hp
        · simp only [Option.some.injEq, Prod.mk.injEq] at hp
          obtain ⟨rfl, rfl⟩ := hp
          refine ⟨⟨?_, ?_⟩, fun c => ?_⟩
          · rw [insert_or_fst]
            exact orInsert_nodup hnd
          · intro c hc
            rw [isSome_insert_or]
            rw [lookupA_insertA] at hc
            by_cases h : c = c1
            · exact Or.inr h
            · rw [if_neg h] at hc
              exact Or.inl (hD c hc)
          · rw [isSome_insert_or]
            simp only [dwHit]; exact or_congr Iff.rfl ⟨Eq.symm, Eq.symm⟩
  | Withdrawal c1 tx a =>
    simp only [TxProcessor.process] at hp
    split at hp
    · simp only [Option.some.injEq, Prod.mk.injEq] at hp
      obtain ⟨rfl, rfl⟩ := hp
      refine ⟨⟨orInsert_nodup hnd, ?_⟩, fun c => ?_⟩
      · intro c hc
        rw [isSome_orInsert]
        exact Or.inl (hD c hc)
      · rw [isSome_orInsert]
        simp only [dwHit]; exact or_congr Iff.rfl ⟨Eq.symm, Eq.symm⟩
    · rcases hd : ((orInsertClient p.clients c1).2).withdraw a with e1 | cl'
      all_goals simp only [hd, Option.some.injEq, Prod.mk.injEq] at hp
      all_goals obtain ⟨rfl, rfl⟩ := hp
      · refine ⟨⟨orInsert_nodup hnd, ?_⟩, fun c => ?_⟩
        · intro c hc
          rw [isSome_orInsert]
          exact Or.inl (hD c hc)
        · rw [isSome_orInsert]
          simp only [dwHit]; exact or_congr Iff.rfl ⟨Eq.symm, Eq.symm⟩
      · refine ⟨⟨?_, ?_⟩, fun c => ?_⟩
        · rw [insert_or_fst]
          exact orInsert_nodup hnd
        · intro c hc
          rw [isSome_insert_or]
          exact Or.inl (hD c hc)
        · rw [isSome_insert_or]
          simp only [dwHit]; exact or_congr Iff.rfl ⟨Eq.symm, Eq.symm⟩
  | Dispute c1 tx =>
    simp only [TxProcessor.process] at hp
    rcases hda : p.deposit_amount c1 tx with e | a
    all_goals simp only [hda] at hp
    · simp only [Option.some.injEq, Prod.mk.injEq] at hp
      obtain ⟨rfl, rfl⟩ := hp
      exact ⟨⟨hnd, hD⟩, fun c => by simp [dwHit]⟩
    · have hc1 : (lookupA p.clients c1).isSome = true :=
        hD c1 (depLookup_outer (deposit_amount_ok hda))
      split at hp
      · simp only [Option.some.injEq, Prod.mk.injEq] at hp
        obtain ⟨rfl, rfl⟩ := hp
        exact ⟨⟨hnd, hD⟩, fun c => by simp [dwHit]⟩
      · split at hp
        · simp only [Option.some.injEq, Prod.mk.injEq] at hp
          obtain ⟨rfl, rfl⟩ := hp
          refine ⟨⟨orInsert_nodup hnd, ?_⟩, fun c => ?_⟩
          · intro c hc
            rw [isSome_orInsert]
            exact Or.inl (hD c hc)
          · rw [isSome_orInsert]
            simp only [dwHit, iff_false, or_false]
            constructor
            · rintro (h | rfl)
              · exact h
              · exact hc1
            · exact Or.inl
        · rcases hd : ((orInsertClient p.clients c1).2).dispute a with _ | e1 | cl'
          all_goals simp only [hd] at hp
          · exact Option.noConfusion hp
          · simp only [Option.some.injEq, Prod.mk.injEq] at hp
            obtain ⟨rfl, rfl⟩ := hp
            refine ⟨⟨orInsert_nodup hnd, ?_⟩, fun c => ?_⟩
            · intro c hc
              rw [isSome_orInsert]
              exact Or.inl (hD c hc)
            · rw [isSome_orInsert]
              simp only [dwHit, iff_false, or_false]
              constructor
              · rintro (h | rfl)
                · exact h
                · exact hc1
              · exact Or.inl
          · simp only [Option.some.injEq, Prod.mk.injEq] at hp
            obtain ⟨rfl, rfl⟩ := hp
            refine ⟨⟨?_, ?_⟩, fun c => ?_⟩
            · rw [insert_or_fst]
              exact orInsert_nodup hnd
            · intro c hc
              rw [isSome_insert_or]
              exact Or.inl (hD c hc)
            · rw [isSome_insert_or]
              simp only [dwHit, iff_false, or_false]
              constructor
              · rintro (h | rfl)
                · exact h
                · exact hc1
              · exact Or.inl
  | Resolve c1 tx =>
    simp only [TxProcessor.process] at hp
    rcases hda : p.deposit_amount c1 tx with e | a
    all_goals simp only [hda] at hp
    · simp only [Option.some.injEq, Prod.mk.injEq] at hp
      obtain ⟨rfl, rfl⟩ := hp
      exact ⟨⟨hnd, hD⟩, fun c => by simp [dwHit]⟩
    · have hc1 : (lookupA p.clients c1).isSome = true :=
        hD c1 (depLookup_outer (deposit_amount_ok hda))
      split at hp
      · split at hp
        · simp only [Option.some.injEq, Prod.mk.injEq] at hp
          obtain ⟨rfl, rfl⟩ := hp
          refine ⟨⟨orInsert_nodup hnd, ?_⟩, fun c => ?_⟩
          · intro c hc
            rw [isSome_orInsert]
            exact Or.inl (hD c hc)
          · rw [isSome_orInsert]
            simp only [dwHit, iff_false, or_false]
            constructor
            · rintro (h | rfl)
              · exact h
              · exact hc1
            · exact Or.inl
        · rcases hd : ((orInsertClient p.clients c1).2).resolve a with _ | cl'
          all_goals simp only [hd] at hp
          · exact Option.noConfusion hp
          · simp only [Option.some.injEq, Prod.mk.injEq] at hp
            obtain ⟨rfl, rfl⟩ := hp
            refine ⟨⟨?_, ?_⟩, fun c => ?_⟩
            · rw [insert_or_fst]
              exact orInsert_nodup hnd
            · intro c hc
              rw [isSome_insert_or]
              exact Or.inl (hD c hc)
            · rw [isSome_insert_or]
              simp only [dwHit, iff_false, or_false]
              constructor
              · rintro (h | rfl)
                · exact h
                · exact hc1
              · exact Or.inl
      · simp only [Option.some.injEq, Prod.mk.injEq] at hp
        obtain ⟨rfl, rfl⟩ := hp
        exact ⟨⟨hnd, hD⟩, fun c => by simp [dwHit]⟩
  | Chargeback c1 tx =>
    simp only [TxProcessor.process] at hp
    rcases hda : p.deposit_amount c1 tx with e | a
    all_goals simp only [hda] at hp
    · simp only [Option.some.injEq, Prod.mk.injEq] at hp
      obtain ⟨rfl, rfl⟩ := hp
      exact ⟨⟨hnd, hD⟩, fun c => by simp [dwHit]⟩
    · have hc1 : (lookupA p.clients c1).isSome = true :=
        hD c1 (depLookup_outer (deposit_amount_ok hda))
      split at hp
      · split at hp
        · simp only [Option.some.injEq, Prod.mk.injEq] at hp
          obtain ⟨rfl, rfl⟩ := hp
          refine ⟨⟨orInsert_nodup hnd, ?_⟩, fun c => ?_⟩
          · intro c hc
            rw [isSome_orInsert]
            exact Or.inl (hD c hc)
          · rw [isSome_orInsert]
            simp only [dwHit, iff_false, or_false]
            constructor
            · rintro (h | rfl)
              · exact h
              · exact hc1
            · exact Or.inl
        · rcases hd : ((orInsertClient p.clients c1).2).chargeback a with _ | cl'
          all_goals simp only [hd] at hp
          · exact Option.noConfusion hp
          · simp only [Option.some.injEq, Prod.mk.injEq] at hp
            obtain ⟨rfl, rfl⟩ := hp
            refine ⟨⟨?_, ?_⟩, fun c => ?_⟩
            · rw [insert_or_fst]
              exact orInsert_nodup hnd
            · intro c hc
              rw [isSome_insert_or]
              exact Or.inl (hD c hc)
            · rw [isSome_insert_or]
              simp only [dwHit, iff_false, or_false]
              constructor
              · rintro (h | rfl)
                · exact h
                · exact hc1
              · exact Or.inl
      · simp only [Option.some.injEq, Prod.mk.injEq] at hp
        obtain ⟨rfl, rfl⟩ := hp
        exact ⟨⟨hnd, hD⟩, fun c => by simp [dwHit]⟩

theorem mem_dwClients (t : Tx) (ts : List Tx) (c : ClientID) :
    c ∈ dwClients (t :: ts) ↔ (dwHit t c ∨ c ∈ dwClients ts) := by
  cases t with
  | Deposit c1 tx a =>
    simp only [dwClients, dwHit, List.mem_cons]
    exact or_congr ⟨Eq.symm, Eq.symm⟩ Iff.rfl
  | Withdrawal c1 tx a =>
    simp only [dwClients, dwHit, List.mem_cons]
    exact or_congr ⟨Eq.symm, Eq.symm⟩ Iff.rfl
  | Dispute c1 tx => simp [dwClients, dwHit]
  | Resolve c1 tx => simp [dwClients, dwHit]
  | Chargeback c1 tx => simp [dwClients, dwHit]

theorem wf_run {txs : List Tx} {p p' : TxProcessor}
    {es : List (Option TxProcessingError)}
    (hW : WF p) (hr : runTrace p txs = some (p', es)) :
    WF p' ∧ (∀ c, (lookupA p'.clients c).isSome = true ↔
      ((lookupA p.clients c).isSome = true ∨ c ∈ dwClients txs)) := by
  induction txs generalizing p es with
  | nil =>
    simp only [runTrace, Option.some.injEq, Prod.mk.injEq] at hr
    obtain ⟨rfl, rfl⟩ := hr
    exact ⟨hW, fun c => by simp [dwClients]⟩
  | cons t ts ih =>
    simp only [runTrace] at hr
    rcases hstep : p.process t with _ | pr
    · simp only [hstep] at hr
      exact Option.noConfusion hr
    · obtain ⟨p1, e⟩ := pr
      simp only [hstep] at hr
      rcases hrun : runTrace p1 ts with _ | pr2
      · simp only [hrun] at hr
        exact Option.noConfusion hr
      · obtain ⟨p2, es2⟩ := pr2
        simp only [hrun, Option.some.injEq, Prod.mk.injEq] at hr
        obtain ⟨⟨rfl, rfl⟩, rfl⟩ := hr
        obtain ⟨hW1, hdom1⟩ := wf_step hW hstep
        obtain ⟨hW2, hdom2⟩ := ih hW1 hrun
        refine ⟨hW2, fun c => ?_⟩
        rw [hdom2 c, hdom1 c, mem_dwClients]
        tauto

theorem lookupA_isSome_iff {α : Type} (m : List (Nat × α)) (k : Nat) :
    (lookupA m k).isSome = true ↔ k ∈ m.map Prod.fst := by
  constructor
  · intro hs
    by_contra hmem
    rw [← lookupA_none_iff] at hmem
    rw [hmem] at hs
    exact Bool.noConfusion hs
  · intro hmem
    rcases h : lookupA m k with _ | v
    · exact absurd hmem ((lookupA_none_iff m k).mp h)
    · rfl

theorem mapM_summaries (l : List (ClientID × Client))
    (hB : ∀ e ∈ l, e.2.available.units + e.2.held.units < U64SIZE) :
    mapOption (fun e => (e.2.totalOf).map
        (fun t => (⟨e.1, e.2.available, e.2.held, t, e.2.locked⟩ : ClientSummary))) l
      = some (l.map (fun e => ⟨e.1, e.2.available, e.2.held,
          ⟨e.2.available.units + e.2.held.units⟩, e.2.locked⟩)) := by
  induction l with
  | nil => rfl
  | cons hd tl ih =>
    have hhd : hd.2.totalOf = some ⟨hd.2.available.units + hd.2.held.units⟩ :=
      totalOf_some_iff.mpr ⟨hB hd (List.mem_cons_self _ _), rfl⟩
    have htl := ih (fun e he => hB e (List.mem_cons_of_mem _ he))
    simp [mapOption, hhd, htl]

/-- C9 counterexample: the sequence consisting of the single event
Dispute(client 1, tx 1) fails with DepositNotFound, and the final summaries
list is EMPTY — client 1 was referenced by an event of the sequence but
gets no entry, contradicting "one entry per client ever referenced ...
including clients whose every event failed". -/
theorem claim_C9_counterexample :
    (runTrace TxProcessor.new [.Dispute 1 1]).map
      (fun r => (r.2, r.1.client_summaries)) =
      some ([some .DepositNotFound], some []) := rfl

/-- C9 (amended): after any panic-free run from a fresh engine, summaries()
yields exactly one entry per client referenced by at least one Deposit or
Withdrawal event — including those whose every event failed — while clients
referenced only by Dispute/Resolve/Chargeback events get no entry (those
events create no account when their deposit lookup fails, and when the
lookup succeeds the client already has an account).  Each entry carries the
client's recorded available, held, locked, and total = available + held. -/
theorem claim_C9 (txs : List Tx) (p : TxProcessor)
    (es : List (Option TxProcessingError))
    (hr : runTrace TxProcessor.new txs = some (p, es)) :
    ∃ ss, p.client_summaries = some ss ∧
      (∀ c, (∃ s ∈ ss, s.id = c) ↔ c ∈ dwClients txs) ∧
      (∀ s ∈ ss, s.total.units = s.available.units + s.held.units ∧
        lookupA p.clients s.id = some ⟨s.available, s.held, s.locked⟩) ∧
      (ss.map ClientSummary.id).Nodup := by
  have hB : ClientsBounded p := bounded_run new_bounded hr
  have hWnew : WF TxProcessor.new :=
    ⟨List.nodup_nil, fun c hc => by simp [TxProcessor.new, lookupA] at hc⟩
  obtain ⟨⟨hnd, hD⟩, hdom⟩ := wf_run hWnew hr
  have hsumm := mapM_summaries p.clients hB
  refine ⟨_, hsumm, ?_, ?_, ?_⟩
  · intro c
    have hmap : (∃ s ∈ p.clients.map (fun e =>
        (⟨e.1, e.2.available, e.2.held,
          ⟨e.2.available.units + e.2.held.units⟩, e.2.locked⟩ : ClientSummary)),
        s.id = c) ↔ c ∈ p.clients.map Prod.fst := by
      simp only [List.mem_map]
      constructor
      · rintro ⟨s, ⟨e, he, rfl⟩, hid⟩
        exact ⟨e, he, hid⟩
      · rintro ⟨e, he, hid⟩
        exact ⟨_, ⟨e, he, rfl⟩, hid⟩
    rw [hmap, ← lookupA_isSome_iff, hdom c]
    have hbase : (lookupA TxProcessor.new.clients c).isSome = true ↔ False := by
      simp [TxProcessor.new, lookupA]
    rw [hbase]
    tauto
  · intro s hs
    rw [List.mem_map] at hs
    obtain ⟨e, he, rfl⟩ := hs
    refine ⟨rfl, ?_⟩
    have : lookupA p.clients e.1 = some e.2 :=
      mem_lookupA_of_nodup hnd (by rw [← Prod.mk.eta (p := e)] at he; exact he)
    exact this
  · have : (p.clients.map (fun e =>
        (⟨e.1, e.2.available, e.2.held,
          ⟨e.2.available.units + e.2.held.units⟩, e.2.locked⟩ : ClientSummary))).map
        ClientSummary.id = p.clients.map Prod.fst := by
      rw [List.map_map]
      rfl
    rw [this]
    exact hnd

/-- Final engine state of the C9 witness run. -/
def pC9w : TxProcessor := ⟨[(1, ⟨⟨5⟩, ⟨0⟩, false⟩)], [(1, [(1, ⟨5⟩)])], []⟩

/-- Witness for C9 on a concrete one-deposit run. -/
theorem claim_C9_witness :
    ∃ ss, pC9w.client_summaries = some ss ∧
      (∀ c, (∃ s ∈ ss, s.id = c) ↔ c ∈ dwClients [.Deposit 1 1 ⟨5⟩]) ∧
      (∀ s ∈ ss, s.total.units = s.available.units + s.held.units ∧
        lookupA pC9w.clients s.id = some ⟨s.available, s.held, s.locked⟩) ∧
      (ss.map ClientSummary.id).Nodup :=
  claim_C9 [.Deposit 1 1 ⟨5⟩] pC9w [none] rfl

/-! ## Decimal rendering and parsing lemmas for the round-trip law -/

theorem digitChar_isDigit {d : Nat} (h : d < 10) : (Nat.digitChar d).isDigit = true := by
  revert h
  revert d
  decide

theorem charVal_digitChar {d : Nat} (h : d < 10) : charVal (Nat.digitChar d) = d := by
  revert h
  revert d
  decide

theorem digitChar_ne_dot {d : Nat} (h : d < 10) : Nat.digitChar d ≠ '.' := by
  revert h
  revert d
  decide

theorem digitChar_ne_plus {d : Nat} (h : d < 10) : Nat.digitChar d ≠ '+' := by
  revert h
  revert d
  decide

theorem digitChar_ne_zero {d : Nat} (h : d < 10) (hd : d ≠ 0) : Nat.digitChar d ≠ '0' := by
  revert hd
  revert h
  revert d
  decide

/-- Numeric value of a digit string, as accumulated by the parse loop. -/
def charsVal (l : List Char) : Nat :=
  l.foldl (fun a c => a * 10 + charVal c) 0

theorem natToChars_ne_nil (n : Nat) : natToChars n ≠ [] := by
  unfold natToChars
  by_cases h : n = 0
  · simp [h]
  · simp only [h, if_false]
    intro hcon
    rw [List.reverse_eq_nil_iff, List.map_eq_nil_iff] at hcon
    exact (Nat.digits_ne_nil_iff_ne_zero.mpr h) hcon

theorem natToChars_digits {n : Nat} {c : Char} (hc : c ∈ natToChars n) :
    c.isDigit = true := by
  unfold natToChars at hc
  by_cases h : n = 0
  · simp [h] at hc
    subst hc
    decide
  · simp only [h, if_false, List.mem_reverse, List.mem_map] at hc
    obtain ⟨d, hd, rfl⟩ := hc
    exact digitChar_isDigit (Nat.digits_lt_base (by omega) hd)

theorem natToChars_no_dot {n : Nat} : '.' ∉ natToChars n := by
  intro h
  have := natToChars_digits h
  exact absurd this (by decide)

theorem natToChars_no_plus_head {n : Nat} {c : Char} (hc : c ∈ natToChars n) :
    c ≠ '+' := by
  intro h
  subst h
  exact absurd (natToChars_digits hc) (by decide)

theorem foldl_rev_map_digits (L : List Nat) (hL : ∀ d ∈ L, d < 10) (acc : Nat) :
    ((L.map Nat.digitChar).reverse).foldl (fun a c => a * 10 + charVal c) acc
      = acc * 10 ^ L.length + Nat.ofDigits 10 L := by
  induction L generalizing acc with
  | nil => simp [Nat.ofDigits]
  | cons d L' ih =>
    have hd : d < 10 := hL d (List.mem_cons_self _ _)
    have hL' : ∀ x ∈ L', x < 10 := fun x hx => hL x (List.mem_cons_of_mem _ hx)
    simp only [List.map_cons, List.reverse_cons, List.foldl_append, List.foldl_cons,
      List.foldl_nil, ih hL' acc, Nat.ofDigits_cons, List.length_cons]
    rw [charVal_digitChar hd]
    ring

theorem charsVal_natToChars (n : Nat) : charsVal (natToChars n) = n := by
  unfold charsVal natToChars
  by_cases h : n = 0
  · simp [h, charVal]
  · simp only [h, if_false]
    rw [foldl_rev_map_digits _ (fun d hd => Nat.digits_lt_base (by omega) hd) 0]
    simp [Nat.ofDigits_digits]

theorem foldl_val_ge (l : List Char) (acc : Nat) :
    acc ≤ l.foldl (fun a c => a * 10 + charVal c) acc := by
  induction l generalizing acc with
  | nil => exact Nat.le_refl acc
  | cons c rest ih =>
    simp only [List.foldl_cons]
    exact Nat.le_trans (by omega) (ih (acc * 10 + charVal c))

theorem parseDigitsLoop_ok (l : List Char) (acc : Nat)
    (hdig : ∀ c ∈ l, c.isDigit = true)
    (hbound : l.foldl (fun a c => a * 10 + charVal c) acc < U64SIZE) :
    parseDigitsLoop l acc = .ok (l.foldl (fun a c => a * 10 + charVal c) acc) := by
  induction l generalizing acc with
  | nil => rfl
  | cons c rest ih =>
    simp only [List.foldl_cons] at hbound ⊢
    have hc : c.isDigit = true := hdig c (List.mem_cons_self _ _)
    have hacc : acc * 10 + charVal c < U64SIZE :=
      Nat.lt_of_le_of_lt (foldl_val_ge rest (acc * 10 + charVal c)) hbound
    unfold parseDigitsLoop
    rw [if_pos hc, if_pos hacc]
    exact ih _ (fun x hx => hdig x (List.mem_cons_of_mem _ hx)) hbound

theorem isDigit_ne_plus {c : Char} (h : c.isDigit = true) : c ≠ '+' := by
  intro hc
  subst hc
  exact Bool.noConfusion h

theorem parseU64_digits (l : List Char) (hne : l ≠ [])
    (hdig : ∀ c ∈ l, c.isDigit = true) (hbound : charsVal l < U64SIZE) :
    parseU64 l = .ok (charsVal l) := by
  cases l with
  | nil => exact absurd rfl hne
  | cons c rest =>
    simp only [parseU64]
    rw [if_neg (isDigit_ne_plus (hdig c (List.mem_cons_self _ _)))]
    exact parseDigitsLoop_ok _ 0 hdig hbound

theorem parseU64_natToChars (n : Nat) (h : n < U64SIZE) :
    parseU64 (natToChars n) = .ok n := by
  have := parseU64_digits (natToChars n) (natToChars_ne_nil n)
    (fun c hc => natToChars_digits hc)
    (by rw [charsVal_natToChars]; exact h)
  rwa [charsVal_natToChars] at this

theorem natToChars_getLast (n : Nat) (h : 0 < n) :
    (natToChars n).getLast? = some (Nat.digitChar (n % 10)) := by
  unfold natToChars
  rw [if_neg (by omega)]
  rw [List.getLast?_reverse]
  rw [Nat.digits_def' (by omega : (1:Nat) < 10) h]
  rfl

theorem trim_of_getLast_ne_zero (l : List Char) (h : ∀ c, l.getLast? = some c → c ≠ '0') :
    trimTrailingZeros l = l := by
  unfold trimTrailingZeros
  rcases hl : l.reverse with _ | ⟨c, rest⟩
  · rw [List.reverse_eq_nil_iff] at hl
    subst hl
    rfl
  · have hc : l.getLast? = some c := by
      rw [← List.head?_reverse, hl]
      rfl
    rw [List.dropWhile_cons, if_neg (by simpa using h c hc)]
    rw [← hl, List.reverse_reverse]

theorem padZeros_length {w : Nat} {l : List Char} (h : l.length ≤ w) :
    (padZeros w l).length = w := by
  simp [padZeros]
  omega

theorem padZeros_digits {w : Nat} {l : List Char} (hl : ∀ c ∈ l, c.isDigit = true) :
    ∀ c ∈ padZeros w l, c.isDigit = true := by
  intro c hc
  unfold padZeros at hc
  rcases List.mem_append.mp hc with h1 | h1
  · rw [List.eq_of_mem_replicate h1]
    decide
  · exact hl c h1

theorem padZeros_getLast {w : Nat} {l : List Char} (h : l ≠ []) :
    (padZeros w l).getLast? = l.getLast? := by
  unfold padZeros
  exact List.getLast?_append_of_ne_nil _ h

theorem foldl_replicate_zero (k acc : Nat) :
    (List.replicate k '0').foldl (fun a c => a * 10 + charVal c) acc = acc * 10 ^ k := by
  induction k generalizing acc with
  | zero => simp
  | succ k ih =>
    rw [List.replicate_succ, List.foldl_cons, ih]
    have : charVal '0' = 0 := rfl
    rw [this]
    ring

theorem charsVal_padZeros (w : Nat) (l : List Char) :
    charsVal (padZeros w l) = charsVal l := by
  unfold charsVal padZeros
  rw [List.foldl_append, foldl_replicate_zero]
  simp

theorem splitDot_no_dot (l : List Char) (h : '.' ∉ l) : splitDot l = [l] := by
  induction l with
  | nil => rfl
  | cons c rest ih =>
    have hc : ¬c = '.' := fun hc => h (hc ▸ List.mem_cons_self _ _)
    have hr : '.' ∉ rest := fun hr => h (List.mem_cons_of_mem _ hr)
    simp only [splitDot, if_neg hc, ih hr]

theorem splitDot_append (A B : List Char) (hA : '.' ∉ A) :
    splitDot (A ++ '.' :: B) = A :: splitDot B := by
  induction A with
  | nil => simp [splitDot]
  | cons c rest ih =>
    have hc : ¬c = '.' := fun hc => hA (hc ▸ List.mem_cons_self _ _)
    have hr : '.' ∉ rest := fun hr => hA (List.mem_cons_of_mem _ hr)
    simp only [List.cons_append, List.append_eq, splitDot, if_neg hc]
    rw [ih hr]

theorem stripZeros_spec : ∀ (fp w : Nat), 0 < fp →
    ∃ k, stripZeros fp w = (fp / 10 ^ k, w - k) ∧ 10 ^ k ∣ fp ∧
      (fp / 10 ^ k) % 10 ≠ 0 := by
  intro fp
  induction fp using Nat.strong_induction_on with
  | _ fp ih =>
    intro w hfp
    by_cases h : fp % 10 = 0
    · have h10 : (10 : Nat) ∣ fp := Nat.dvd_of_mod_eq_zero h
      have hfp10 : 0 < fp / 10 := Nat.div_pos (Nat.le_of_dvd hfp h10) (by omega)
      obtain ⟨k, heq, hdvd, hmod⟩ :=
        ih (fp / 10) (Nat.div_lt_self hfp (by omega)) (w - 1) hfp10
      have hdiv : fp / 10 / 10 ^ k = fp / 10 ^ (k + 1) := by
        rw [Nat.div_div_eq_div_mul]
        congr 1
        rw [Nat.pow_succ']
      refine ⟨k + 1, ?_, ?_, ?_⟩
      · unfold stripZeros
        rw [dif_pos ⟨hfp, h⟩, heq, hdiv]
        have : w - 1 - k = w - (k + 1) := by omega
        rw [this]
      · obtain ⟨m, hm⟩ := hdvd
        refine ⟨m, ?_⟩
        have : fp = 10 * (fp / 10) := (Nat.mul_div_cancel' h10).symm
        rw [this, hm, Nat.pow_succ']
        ring
      · rw [← hdiv]
        exact hmod
    · refine ⟨0, ?_, Dvd.intro fp (by ring), ?_⟩
      · unfold stripZeros
        rw [dif_neg (by omega)]
        simp
      · simpa using h

theorem natToChars_length_le {n w : Nat} (hn : 0 < n) (hw : n < 10 ^ w) :
    (natToChars n).length ≤ w := by
  unfold natToChars
  rw [if_neg (by omega)]
  rw [List.length_reverse, List.length_map]
  rw [Nat.digits_len 10 n (by omega) (by omega)]
  have := Nat.log_lt_of_lt_pow (by omega : n ≠ 0) hw
  omega

/-- C3: the parse/format round-trip law holds for every representable
Amount (every unsigned 64-bit count of minor units): formatting to text and
parsing back returns exactly the original amount. -/
theorem claim_C3 (a : Amount) (h : a.units < U64SIZE) :
    Amount.fromString a.toText = .ok a := by
  show Amount.fromStr a.format = .ok a
  obtain ⟨x⟩ := a
  simp only [Amount.format]
  by_cases hfp : x % 10000 > 0
  · rw [if_pos hfp]
    obtain ⟨k, hsz, hdvd, hmod⟩ := stripZeros_spec (x % 10000) 4 hfp
    rw [hsz]
    have hq4 : x % 10000 < 10 ^ 4 := Nat.mod_lt x (by omega)
    have hk4 : k < 4 := by
      have h1 : 10 ^ k ≤ x % 10000 := Nat.le_of_dvd hfp hdvd
      have h2 : 10 ^ k < 10 ^ 4 := Nat.lt_of_le_of_lt h1 hq4
      exact (Nat.pow_lt_pow_iff_right (by omega)).mp h2
    have hfp' : 0 < x % 10000 / 10 ^ k := by
      rcases Nat.eq_zero_or_pos (x % 10000 / 10 ^ k) with h0 | h0
      · rw [h0] at hmod
        exact absurd rfl hmod
      · exact h0
    have hlt : x % 10000 / 10 ^ k < 10 ^ (4 - k) := by
      rw [Nat.div_lt_iff_lt_mul (Nat.pos_pow_of_pos k (by omega))]
      calc x % 10000 < 10 ^ 4 := hq4
        _ = 10 ^ (4 - k) * 10 ^ k := by
            rw [← Nat.pow_add]
            congr 1
            omega
    have hlen : (padZeros (4 - k) (natToChars (x % 10000 / 10 ^ k))).length = 4 - k :=
      padZeros_length (natToChars_length_le hfp' hlt)
    have hfdig : ∀ c ∈ padZeros (4 - k) (natToChars (x % 10000 / 10 ^ k)),
        c.isDigit = true :=
      padZeros_digits (fun c hc => natToChars_digits hc)
    have hfnodot : '.' ∉ padZeros (4 - k) (natToChars (x % 10000 / 10 ^ k)) := by
      intro hc
      exact absurd (hfdig _ hc) (by decide)
    have hsplit : splitDot (natToChars (x / 10000) ++ '.' ::
        padZeros (4 - k) (natToChars (x % 10000 / 10 ^ k)))
        = [natToChars (x / 10000),
           padZeros (4 - k) (natToChars (x % 10000 / 10 ^ k))] := by
      rw [splitDot_append _ _ natToChars_no_dot, splitDot_no_dot _ hfnodot]
    have hipsE : (natToChars (x / 10000)).isEmpty = false := by
      rcases he : (natToChars (x / 10000)).isEmpty with _ | _
      · rfl
      · exact absurd (List.isEmpty_iff.mp he) (natToChars_ne_nil _)
    have hipsP : parseU64 (natToChars (x / 10000)) = .ok (x / 10000) :=
      parseU64_natToChars _ (Nat.lt_of_le_of_lt (Nat.div_le_self x 10000) h)
    have htrim : trimTrailingZeros (padZeros (4 - k)
        (natToChars (x % 10000 / 10 ^ k)))
        = padZeros (4 - k) (natToChars (x % 10000 / 10 ^ k)) := by
      apply trim_of_getLast_ne_zero
      intro c hc
      rw [padZeros_getLast (natToChars_ne_nil _),
        natToChars_getLast _ hfp'] at hc
      rw [Option.some_inj] at hc
      subst hc
      exact digitChar_ne_zero (Nat.mod_lt _ (by omega)) hmod
    have hfne : padZeros (4 - k) (natToChars (x % 10000 / 10 ^ k)) ≠ [] := by
      intro hnil
      rw [hnil] at hlen
      simp at hlen
      omega
    have hfE : (padZeros (4 - k) (natToChars (x % 10000 / 10 ^ k))).isEmpty = false := by
      rcases he : (padZeros (4 - k) (natToChars (x % 10000 / 10 ^ k))).isEmpty with _ | _
      · rfl
      · exact absurd (List.isEmpty_iff.mp he) hfne
    have hfval : charsVal (padZeros (4 - k) (natToChars (x % 10000 / 10 ^ k)))
        = x % 10000 / 10 ^ k := by
      rw [charsVal_padZeros, charsVal_natToChars]
    have hsmall : x % 10000 < U64SIZE := by
      have h1 : x % 10000 < 10000 := Nat.mod_lt x (by omega)
      have h2 : (10000 : Nat) < U64SIZE := by norm_num [U64SIZE]
      omega
    have hfP : parseU64 (padZeros (4 - k) (natToChars (x % 10000 / 10 ^ k)))
        = .ok (x % 10000 / 10 ^ k) := by
      have hb : charsVal (padZeros (4 - k) (natToChars (x % 10000 / 10 ^ k))) < U64SIZE := by
        rw [hfval]
        exact Nat.lt_of_le_of_lt (Nat.div_le_self _ _) hsmall
      have h2 := parseU64_digits _ hfne hfdig hb
      rw [hfval] at h2
      exact h2
    have hlen4 : ¬((4 - k) > 4) := by omega
    simp only [Amount.fromStr, hsplit, hipsE, Bool.false_eq_true, if_false,
      hipsP, htrim, hlen, if_neg hlen4, hfE, hfP]
    have hfpval : (if 4 - k < 4 then x % 10000 / 10 ^ k * 10 ^ (4 - (4 - k))
        else x % 10000 / 10 ^ k) = x % 10000 := by
      by_cases hk0 : k = 0
      · subst hk0
        norm_num
      · rw [if_pos (by omega)]
        have h44 : 4 - (4 - k) = k := by omega
        rw [h44]
        exact Nat.div_mul_cancel hdvd
    have hmul : checkedMulM (x / 10000) 10000 = some (x / 10000 * 10000) := by
      unfold checkedMulM
      rw [if_pos (Nat.lt_of_le_of_lt (Nat.div_mul_le_self x 10000) h)]
    have hadd : checkedAddM (x / 10000 * 10000) (x % 10000) = some x := by
      unfold checkedAddM
      have hx : x / 10000 * 10000 + x % 10000 = x := Nat.div_add_mod' x 10000
      rw [hx, if_pos h]
    rw [hfpval]
    simp only [hmul, hadd]
  · rw [if_neg hfp]
    have hdvd : (10000 : Nat) ∣ x := Nat.dvd_of_mod_eq_zero (by omega)
    have h1 : splitDot (natToChars (x / 10000)) = [natToChars (x / 10000)] :=
      splitDot_no_dot _ natToChars_no_dot
    have h2 : parseU64 (natToChars (x / 10000)) = .ok (x / 10000) :=
      parseU64_natToChars _ (Nat.lt_of_le_of_lt (Nat.div_le_self x 10000) h)
    simp only [Amount.fromStr, h1, h2]
    rw [Nat.div_mul_cancel hdvd, Nat.mod_eq_of_lt h]

/-- Witness for C3 at the concrete amount 1.2345. -/
theorem claim_C3_witness :
    (⟨12345⟩ : Amount).units < U64SIZE ∧
    Amount.fromString (Amount.toText ⟨12345⟩) = .ok ⟨12345⟩ :=
  ⟨by decide, claim_C3 ⟨12345⟩ (by decide)⟩

/-- A part (integer or fractional) contains a character that is neither a
decimal digit nor a leading `'+'` sign. -/
def hasBadChar (l : List Char) : Prop :=
  ∃ x ∈ (if l.head? = some '+' then l.tail else l), x.isDigit = false

instance (l : List Char) : Decidable (hasBadChar l) :=
  inferInstanceAs (Decidable (∃ x ∈ _, _))

theorem hasBadChar_ne_nil {l : List Char} (h : hasBadChar l) : l ≠ [] := by
  intro hnil
  subst hnil
  simp [hasBadChar] at h

theorem parseDigitsLoop_bad {l : List Char} (acc : Nat)
    (h : ∃ c ∈ l, c.isDigit = false) :
    ∃ e, parseDigitsLoop l acc = .error e := by
  induction l generalizing acc with
  | nil =>
    obtain ⟨c, hc, _⟩ := h
    exact absurd hc (List.not_mem_nil c)
  | cons c rest ih =>
    rcases hd : c.isDigit with _ | _
    · exact ⟨.invalidDigit, by unfold parseDigitsLoop; rw [if_neg (by rw [hd]; exact Bool.noConfusion)]⟩
    · obtain ⟨c1, hc1, hc1d⟩ := h
      have hrest : ∃ x ∈ rest, x.isDigit = false := by
        rcases List.mem_cons.mp hc1 with h1 | h1
        · subst h1
          rw [hd] at hc1d
          exact absurd hc1d Bool.noConfusion
        · exact ⟨c1, h1, hc1d⟩
      unfold parseDigitsLoop
      rw [if_pos hd]
      by_cases hb : acc * 10 + charVal c < U64SIZE
      · rw [if_pos hb]
        exact ih _ hrest
      · rw [if_neg hb]
        exact ⟨.posOverflow, rfl⟩

theorem parseU64_bad {l : List Char} (h : hasBadChar l) :
    ∃ e, parseU64 l = .error e := by
  cases l with
  | nil => simp [hasBadChar] at h
  | cons c rest =>
    unfold hasBadChar at h
    simp only [List.head?_cons, List.tail_cons] at h
    by_cases hc : c = '+'
    · subst hc
      rw [if_pos rfl] at h
      simp only [parseU64, if_pos rfl]
      have hrne : ¬(rest.isEmpty = true) := by
        intro he
        obtain ⟨x, hx, _⟩ := h
        rw [List.isEmpty_iff.mp he] at hx
        exact List.not_mem_nil x hx
      rw [if_neg hrne]
      exact parseDigitsLoop_bad 0 h
    · rw [if_neg (by simpa using hc)] at h
      simp only [parseU64, if_neg hc]
      exact parseDigitsLoop_bad 0 h

/-- C8 (amended): for inputs with at most one dot, a character of the
integer part that is neither a digit nor a leading `'+'` makes parsing fail
with a `Parse` error; so does such a character in the trailing-zero-trimmed
fractional part when that part is at most 4 characters long.  (A leading
`'+'` inside either part is accepted by the underlying integer parser — see
the counterexample — and a trimmed fractional part longer than 4 characters
fails with `TooPrecise` before its characters are examined.) -/
theorem claim_C8 (s ips fps : List Char) :
    (splitDot s = [ips] → hasBadChar ips →
      ∃ e, Amount.fromStr s = .error (.Parse e)) ∧
    (splitDot s = [ips, fps] → hasBadChar ips →
      ∃ e, Amount.fromStr s = .error (.Parse e)) ∧
    (splitDot s = [ips, fps] → hasBadChar (trimTrailingZeros fps) →
      (trimTrailingZeros fps).length ≤ 4 →
      ∃ e, Amount.fromStr s = .error (.Parse e)) := by
  refine ⟨fun hsp hbad => ?_, fun hsp hbad => ?_, fun hsp hbad hlen => ?_⟩
  · obtain ⟨e, he⟩ := parseU64_bad hbad
    refine ⟨e, ?_⟩
    simp only [Amount.fromStr, hsp, he]
  · obtain ⟨e, he⟩ := parseU64_bad hbad
    have hne : ips.isEmpty = false := by
      rcases h : ips.isEmpty with _ | _
      · rfl
      · exact absurd (List.isEmpty_iff.mp h) (hasBadChar_ne_nil hbad)
    refine ⟨e, ?_⟩
    simp only [Amount.fromStr, hsp, hne, Bool.false_eq_true, if_false, he]
  · obtain ⟨e, he⟩ := parseU64_bad hbad
    have hfe : (trimTrailingZeros fps).isEmpty = false := by
      rcases h : (trimTrailingZeros fps).isEmpty with _ | _
      · rfl
      · exact absurd (List.isEmpty_iff.mp h) (hasBadChar_ne_nil hbad)
    have hl4 : ¬(trimTrailingZeros fps).length > 4 := by omega
    rcases hip : (if ips.isEmpty then Except.ok 0 else parseU64 ips :
        Except IntErrKind Nat) with e1 | ip
    · exact ⟨e1, by simp only [Amount.fromStr, hsp, hip]⟩
    · refine ⟨e, ?_⟩
      simp only [Amount.fromStr, hsp, hip, if_neg hl4, hfe,
        Bool.false_eq_true, if_false, he]

/-- Witness for C8 at three concrete inputs: a bad dotless input, a bad
integer part, and a bad short fractional part. -/
theorem claim_C8_witness :
    (∃ e, Amount.fromStr ['z'] = .error (.Parse e)) ∧
    (∃ e, Amount.fromStr ['y', '.', '5'] = .error (.Parse e)) ∧
    (∃ e, Amount.fromStr ['1', '.', 'x'] = .error (.Parse e)) :=
  ⟨(claim_C8 ['z'] ['z'] []).1 rfl (by decide),
   (claim_C8 ['y', '.', '5'] ['y'] ['5']).2.1 rfl (by decide),
   (claim_C8 ['1', '.', 'x'] ['1'] ['x']).2.2 rfl (by decide) (by decide)⟩

end Payments


